import Mathlib

/-!
Shallow embedding of the branching-index engine of command-line-loom
(`cll/data_structs/node.py`, `cll/data_structs/data_structs.py`,
`cll/data_structs/loom_index.py`, plus the delete entry point of
`cll/tree.py`).

Modelling conventions:
* The Python dict `all_nodes : id -> Node` always keeps each key equal to the
  stored `node.index` (both `add_node` and `insert_under_parent` store at
  `node.index`), so it is embedded as an insertion-ordered `List Node`.
  Dict lookup is the first list element carrying the index; dict assignment
  replaces in place when the key exists (Python dicts keep the original slot)
  and appends otherwise.
* `node_info` carries the `checked_out` flag through
  `node_info.get("checked_out", False)` and `node_info.pop`; an absent key is
  observationally `false`, so the flag is embedded as a `Bool` field.
* A Python `set` of child ids is embedded as a duplicate-free list; every use
  relevant to the claims (membership, `min`, `sorted`, uniqueness of the
  checked-out child) is insensitive to iteration order.
* Exceptions (`ValueError`, `KeyError`, `AttributeError`, `IndexError`,
  `UnboundLocalError`) are `Option.none`.
-/

structure Node where
  index : Nat
  text : String
  child_indices : List Nat
  checked_out : Bool
deriving DecidableEq

structure IndexGraph where
  all_nodes : List Node
  root_nodes : List Nat
  path_neighborhood : Nat := 3
  head_neighborhood : Nat := 10
deriving DecidableEq

/-- Python dict lookup `all_nodes.get(i)`. -/
def lookup (g : IndexGraph) (i : Nat) : Option Node :=
  g.all_nodes.find? (fun m => m.index == i)

/-- Python `i in all_nodes`. -/
def memberIdx (g : IndexGraph) (i : Nat) : Bool :=
  (lookup g i).isSome

/-- `IndexGraph.get_children` (data_structs.py line 106): the dict of children of
a node.  A child id absent from `all_nodes` would raise KeyError in the source;
it is skipped here, which is unreachable for well-formed graphs. -/
def getChildren (g : IndexGraph) (p : Node) : List Node :=
  p.child_indices.filterMap (lookup g)

/-- `IndexGraph.get_parent` (data_structs.py line 122): the first node whose
children contain the id. -/
def getParent (g : IndexGraph) (i : Nat) : Option Node :=
  g.all_nodes.find? (fun p => p.child_indices.contains i)

/-- The `root_nodes` property (data_structs.py line 26), roots as nodes.  A root
id missing from `all_nodes` would raise KeyError in the source; skipped here. -/
def rootNodes (g : IndexGraph) : List Node :=
  g.root_nodes.filterMap (lookup g)

/-- `IndexGraph.get_siblings` with `include_self=True` (data_structs.py
line 129): the children of the parent, or the roots for a parentless node. -/
def getSiblings (g : IndexGraph) (n : Node) : List Node :=
  match getParent g n.index with
  | none => rootNodes g
  | some p => getChildren g p

def setChecked (b : Bool) (n : Node) : Node :=
  { n with checked_out := b }

/-- `LoomIndex.clear_checkout` (loom_index.py line 115). -/
def clearCheckout (g : IndexGraph) : IndexGraph :=
  { g with all_nodes := g.all_nodes.map (setChecked false) }

/-- The upward loop of `LoomIndex.checkout_path` (loom_index.py line 83): the
node itself, then parents until the first id lying in `root_nodes`.  The fuel
bounds the loop; `none` is the ValueError raised when a non-root node has no
parent (it also covers a walk longer than the fuel, impossible in well-formed
graphs, as proven below). -/
def walkToRoot (g : IndexGraph) : Nat → Node → Option (List Node)
  | 0, _ => none
  | fuel + 1, n =>
    if n.index ∈ g.root_nodes then some [n]
    else (getParent g n.index).bind (fun p => (walkToRoot g fuel p).map (fun w => n :: w))

/-- Set the `checked_out` flag to true exactly on the given ids, false
elsewhere. -/
def markOnly (g : IndexGraph) (ids : List Nat) : IndexGraph :=
  { g with all_nodes := g.all_nodes.map (fun m => setChecked (ids.contains m.index) m) }

/-- `LoomIndex.checkout_path` (loom_index.py line 72): clear every flag, then
mark the node and its ancestors up to the root.  Clearing everything and then
marking the walk ids is the same as setting every flag to walk-membership,
which is how `markOnly` is phrased. -/
def checkoutPath (g : IndexGraph) (n : Node) : Option IndexGraph :=
  (walkToRoot g g.all_nodes.length n).map (fun w => markOnly g (w.map (fun m => m.index)))

/-- `_get_checked_out_path` (loom_index.py line 149, data_structs.py line 160):
append the first checked-out node of the dict, recurse into its children. -/
def descendChecked (g : IndexGraph) : Nat → List Node → List Node → List Node
  | 0, _, acc => acc
  | fuel + 1, nodes, acc =>
    match nodes.find? (fun m => m.checked_out) with
    | some n => descendChecked g fuel (getChildren g n) (acc ++ [n])
    | none => acc

/-- The `path` property (loom_index.py line 134, data_structs.py line 68): find
the first checked-out root, then descend through checked-out children. -/
def pathNodes (g : IndexGraph) : List Node :=
  match (rootNodes g).find? (fun m => m.checked_out) with
  | some r => descendChecked g g.all_nodes.length (getChildren g r) [r]
  | none => []

def pathIdxs (g : IndexGraph) : List Nat :=
  (pathNodes g).map (fun m => m.index)

/-- The id of `path[-1]`, the active tip. -/
def tipIdx (g : IndexGraph) : Option Nat :=
  (pathIdxs g).getLast?

/-- The alias folding at the top of `LoomIndex.step` (loom_index.py line 163). -/
def canonDir (d : String) : String :=
  if d = "w" ∨ d = "up" ∨ d = "k" then "up"
  else if d = "s" ∨ d = "down" ∨ d = "j" then "down"
  else if d = "a" ∨ d = "left" ∨ d = "h" then "smaller_sibling"
  else if d = "d" ∨ d = "right" ∨ d = "l" then "larger_sibling"
  else d

/-- The `sib_indexes` list of `_step_sibling` (loom_index.py line 189): the
sibling ids sorted ascending, reversed for the smaller direction. -/
def sibOrder (d : String) (siblings : List Node) : List Nat :=
  if d = "smaller_sibling" then
    ((siblings.map (fun m => m.index)).insertionSort (fun a b => a ≤ b)).reverse
  else (siblings.map (fun m => m.index)).insertionSort (fun a b => a ≤ b)

/-- The id chosen by `_step_sibling` (loom_index.py line 195): the position
after the tip, wrapping to the front from the final position.  `none` models
the ValueError of `list.index` on a tip not among the sibling ids. -/
def sibTarget (sibIdxs : List Nat) (tipI : Nat) : Option Nat :=
  if tipI ∈ sibIdxs then
    if sibIdxs.indexOf tipI = sibIdxs.length - 1 then sibIdxs.head?
    else sibIdxs[sibIdxs.indexOf tipI + 1]?
  else none

/-- `LoomIndex._step_sibling` (loom_index.py line 185): pick the sibling id one
position on in the chosen order and check out the sibling carrying it.  `none`
models the exceptions (tip not among siblings, or a corrupt graph inside
`checkout_path`). -/
def stepSibling (g : IndexGraph) (d : String) (siblings : List Node) (tipI : Nat) :
    Option IndexGraph :=
  match sibTarget (sibOrder d siblings) tipI with
  | none => none
  | some tg =>
    match siblings.find? (fun m => m.index == tg) with
    | none => none
    | some m => checkoutPath g m

/-- `LoomIndex.step` (loom_index.py line 157).  `none` models an exception (an
empty path raising IndexError, or errors inside the helpers).  NOTE: the `"up"`
branch of the source fetches the parent and then falls through without ever
calling `checkout_path`, so moving up never changes the state; the embedding
mirrors that faithfully. -/
def stepOp (g : IndexGraph) (d0 : String) : Option IndexGraph :=
  if canonDir d0 = "up" then
    match (pathNodes g).getLast? with
    | none => none
    | some tipN =>
      match getParent g tipN.index with
      | none => some g
      | some _ => some g
  else if canonDir d0 = "down" then
    match (pathNodes g).getLast? with
    | none => none
    | some tipN =>
      match ((getChildren g tipN).map (fun m => m.index)).min? with
      | none => some g
      | some mn =>
        match (getChildren g tipN).find? (fun m => m.index == mn) with
        | none => none
        | some c => checkoutPath g c
  else if canonDir d0 = "smaller_sibling" ∨ canonDir d0 = "larger_sibling" then
    match (pathNodes g).getLast? with
    | none => none
    | some tipN => stepSibling g (canonDir d0) (getSiblings g tipN) tipN.index
  else some g

/-- `Node.__post_init__` (node.py line 35): only a missing (`None`) text is
rejected; the empty string passes the `is None` test.  The created node starts
with an empty child set and `node_info = {}`, hence not checked out. -/
def mkNode (text : Option String) (index : Nat) : Option Node :=
  match text with
  | none => none
  | some t => some { index := index, text := t, child_indices := [], checked_out := false }

/-- `LoomIndex._create_node` (loom_index.py line 37): the fresh id is the current
node count `len(all_nodes)`. -/
def createNode (g : IndexGraph) (t : String) : Option Node :=
  mkNode (some t) g.all_nodes.length

/-- Python `set.add`. -/
def setAdd (l : List Nat) (c : Nat) : List Nat :=
  if l.contains c then l else l ++ [c]

/-- Python dict assignment `all_nodes[node.index] = node`: replace in place if
the key exists, else append. -/
def dictAssign (l : List Node) (n : Node) : List Node :=
  if l.any (fun m => m.index == n.index) then
    l.map (fun m => if m.index == n.index then n else m)
  else l ++ [n]

/-- `IndexGraph.insert_under_parent` (data_structs.py line 168).  A node whose id
already exists in the store is silently given the fresh id `len(all_nodes)`
instead of raising.  With no parent the source calls `.append` on the
dict-valued `root_nodes` property, raising AttributeError, modelled `none`. -/
def insertUnderParent (g : IndexGraph) (node0 : Node) (parent : Option Node) :
    Option IndexGraph :=
  let node := if memberIdx g node0.index then { node0 with index := g.all_nodes.length } else node0
  match parent with
  | none => none
  | some p =>
    let g1 : IndexGraph := { g with all_nodes := g.all_nodes.map (fun m =>
      if m.index == p.index then { m with child_indices := setAdd m.child_indices node.index } else m) }
    some { g1 with all_nodes := dictAssign g1.all_nodes node }

/-- `IndexGraph.add_root_node` (data_structs.py line 96): store the node if its
id is new, then fail (ValueError, modelled `none`) when the id is already a
root, else append it to the root list. -/
def addRootNode (g : IndexGraph) (n : Node) : Option IndexGraph :=
  let g1 : IndexGraph := if memberIdx g n.index then g else { g with all_nodes := g.all_nodes ++ [n] }
  if n.index ∈ g1.root_nodes then none
  else some { g1 with root_nodes := g1.root_nodes ++ [n.index] }

/-- The operation alphabet of claim C2. -/
inductive Op where
  | ins (t : String)
  | co (i : Nat)
deriving DecidableEq

/-- One engine operation of claim C2.  `ins` is `_create_node` followed by
`_insert` (loom_index.py lines 37 and 206): the fresh node is attached under the
current tip when a path exists, else started as a new root.  `co` is `checkout`
(loom_index.py line 91) resolving an integer id through `get_node`; a missing id
silently returns.  Error branches are kept as the prior state via `getD`; they
are unreachable from well-formed graphs (proven below). -/
def applyOp (g : IndexGraph) : Op → IndexGraph
  | .ins t =>
    let node : Node :=
      { index := g.all_nodes.length, text := t, child_indices := [], checked_out := false }
    match (pathNodes g).getLast? with
    | some tipN => (insertUnderParent g node (some tipN)).getD g
    | none => (addRootNode g node).getD g
  | .co i =>
    match lookup g i with
    | none => g
    | some n => (checkoutPath g n).getD g

def applyOps (g : IndexGraph) (ops : List Op) : IndexGraph :=
  ops.foldl applyOp g

/-- The engine state of `LoomIndex`: the graph plus the tag table and the
optional conversation name. -/
structure LoomState where
  graph : IndexGraph
  tags : List (String × Nat)
  name : Option String := none
deriving DecidableEq

/-- The `Union[int, str]` identifier argument of `LoomIndex.checkout`. -/
inductive Ident where
  | num (i : Nat)
  | str (s : String)

/-- Python `str.isdigit`: nonempty and all digit characters. -/
def isDigitStr (s : String) : Bool :=
  !s.isEmpty && s.toList.all (fun c => c.isDigit)

/-- `IndexGraph.get_node` (data_structs.py line 179) for a string identifier:
digit strings are converted to integer ids and looked up; anything else is
matched against node text, returning the first match in insertion order. -/
def getNodeStr (g : IndexGraph) (s : String) : Option Node :=
  if isDigitStr s then lookup g (s.toNat?.getD 0)
  else g.all_nodes.find? (fun m => m.text == s)

private def checkoutInto (st : LoomState) (n : Node) : Option LoomState :=
  (checkoutPath st.graph n).map (fun g => { st with graph := g })

/-- `LoomIndex.checkout` (loom_index.py line 91).  A tag hit reads
`all_nodes[self.tags[identifier]]` directly, so a stale tag (an id absent from
the store) raises KeyError, modelled `none`.  Every other unresolved identifier
hits the `if node is None: return` guard and leaves the state unchanged. -/
def checkoutLoom (st : LoomState) (ident : Ident) : Option LoomState :=
  match ident with
  | .num i =>
    match lookup st.graph i with
    | none => some st
    | some n => checkoutInto st n
  | .str s =>
    match st.tags.find? (fun p => p.1 == s) with
    | some p =>
      match lookup st.graph p.2 with
      | none => none
      | some n => checkoutInto st n
    | none =>
      match getNodeStr st.graph s with
      | none => some st
      | some n => checkoutInto st n

/-- The JSON object handled by `save_to_dict` and `load_from_dict`; a field is
`none` exactly when its key is absent from the object. -/
structure ResultDict where
  index_struct : Option IndexGraph
  index_struct_id : Option String
  tags : Option (List (String × Nat))
  name : Option (Option String)
deriving DecidableEq

/-- `LoomIndex.save_to_dict` (loom_index.py line 252): only the doc id of the
index struct, the tag table and the name are written.  No `index_struct` key is
ever emitted, so the nodes and roots are not serialized at all. -/
def saveToDict (st : LoomState) (docId : String) : ResultDict :=
  { index_struct := none
    index_struct_id := some docId
    tags := some st.tags
    name := some st.name }

/-- `LoomIndex.load_from_dict` (loom_index.py line 238): the graph is rebuilt
only when the `index_struct` key is present; when it is absent the local
variable `index_struct` is never bound and constructing the index raises
UnboundLocalError, modelled `none`.  `save_to_string` and `load_from_string`
are `json.dumps` and `json.loads` around these two functions, so the dict
level is where the round trip is decided. -/
def loadFromDict (d : ResultDict) : Option LoomState :=
  match d.index_struct with
  | none => none
  | some g => some { graph := g, tags := d.tags.getD [], name := d.name.getD none }

/-! ## Structural validity and the active-path invariant -/

def idxList (g : IndexGraph) : List Nat :=
  g.all_nodes.map (fun m => m.index)

/-- Structural invariants of a forest as the spec states them: unique ids,
duplicate-free child sets, ids monotonically assigned (every child id exceeds
the id of its parent, since children are always created after their parent),
children present in the store, duplicate-free present roots that are nobody's
child, and every non-root having exactly one parent. -/
def WellFormed (g : IndexGraph) : Prop :=
  (idxList g).Nodup ∧
  (∀ n ∈ g.all_nodes, n.child_indices.Nodup) ∧
  (∀ n ∈ g.all_nodes, ∀ c ∈ n.child_indices, n.index < c) ∧
  (∀ n ∈ g.all_nodes, ∀ c ∈ n.child_indices, c ∈ idxList g) ∧
  g.root_nodes.Nodup ∧
  (∀ r ∈ g.root_nodes, r ∈ idxList g) ∧
  (∀ n ∈ g.all_nodes, ∀ c ∈ n.child_indices, c ∉ g.root_nodes) ∧
  (∀ p ∈ g.all_nodes, ∀ q ∈ g.all_nodes, ∀ c : Nat,
      c ∈ p.child_indices → c ∈ q.child_indices → p = q) ∧
  (∀ n ∈ g.all_nodes, n.index ∉ g.root_nodes → ∃ p ∈ g.all_nodes, n.index ∈ p.child_indices)

/-- No gaps in the id space: every id is below the node count.  This holds for
every graph built by inserts alone (ids are then exactly `0 .. count-1`) and
can only be broken by deletions, which leave holes. -/
def Contiguous (g : IndexGraph) : Prop :=
  ∀ n ∈ g.all_nodes, n.index < g.all_nodes.length

def Valid (g : IndexGraph) : Prop :=
  WellFormed g ∧ Contiguous g

def checkedIdxs (g : IndexGraph) : List Nat :=
  (g.all_nodes.filter (fun m => m.checked_out)).map (fun m => m.index)

/-- One parent-child edge of the graph: `b` is a child of the node with id `a`. -/
def childEdge (g : IndexGraph) (a b : Nat) : Bool :=
  match lookup g a with
  | some p => p.child_indices.contains b
  | none => false

/-- Each consecutive pair of the list is a parent-child edge. -/
def chainEdges (g : IndexGraph) : List Nat → Bool
  | a :: b :: t => childEdge g a b && chainEdges g (b :: t)
  | _ => true

/-- The checked-out ids are exactly the simple path `chain`, starting at a root
and descending through parent-child edges. -/
def IsActiveChain (g : IndexGraph) (chain : List Nat) : Prop :=
  (∃ r rest, chain = r :: rest ∧ r ∈ g.root_nodes) ∧
  chainEdges g chain = true ∧
  chain.Nodup ∧
  (∀ i ∈ checkedIdxs g, i ∈ chain) ∧ (∀ i ∈ chain, i ∈ checkedIdxs g)

/-- The invariant of claim C2: no checked-out nodes at all, or a single active
path from a root. -/
def PathInv (g : IndexGraph) : Prop :=
  checkedIdxs g = [] ∨ ∃ chain, IsActiveChain g chain

/-! ## Claim C1: the save/load round trip (persistence codec) -/

/-- Claim C1: the spec demands that loading the string produced by saving a
graph yields back its nodes, roots, tags and active path.  The code cannot do
this for any state: `save_to_dict` never writes the `index_struct` key, so
`load_from_dict` always crashes on its unbound `index_struct` variable, and the
nodes and roots are never serialized in the first place.  This theorem
evaluates the codec at every input, exhibiting the failure. -/
theorem c1_save_load_loses_graph (st : LoomState) (docId : String) :
    loadFromDict (saveToDict st docId) = none := rfl

/-! ## Claim C3: step child then step parent -/

def c3graph : IndexGraph :=
  { all_nodes :=
      [ { index := 0, text := "root", child_indices := [1], checked_out := true }
      , { index := 1, text := "kid", child_indices := [], checked_out := false } ]
    root_nodes := [0] }

def c3after : IndexGraph :=
  { all_nodes :=
      [ { index := 0, text := "root", child_indices := [1], checked_out := true }
      , { index := 1, text := "kid", child_indices := [], checked_out := true } ]
    root_nodes := [0] }

/-- Claim C3: stepping to the child and back to the parent should return the tip
to its original id.  In the source the `"up"` branch of `step` computes the
parent and then falls through without checking it out, so `step("up")` never
moves: from tip 0, `step("down")` reaches tip 1 and `step("up")` leaves the
state (and hence the tip) unchanged at 1 instead of returning to 0. -/
theorem c3_step_up_noop_eval :
    tipIdx c3graph = some 0 ∧
    stepOp c3graph "down" = some c3after ∧
    tipIdx c3after = some 1 ∧
    stepOp c3after "up" = some c3after ∧
    tipIdx c3after ≠ some 0 := by decide

/-! ## Claim C4: checkout of missing ids, unknown tags and stale tags -/

def c4state : LoomState :=
  { graph :=
      { all_nodes := [ { index := 0, text := "a", child_indices := [], checked_out := true } ]
        root_nodes := [0] }
    tags := [("t", 5)] }

/-- Claim C4: the spec demands that checkout of a missing id, an unknown tag or
a stale tag fails with NotFound without crashing and without changing the
checkout state.  A missing id and an unknown tag name indeed leave the state
unchanged, but a stale tag (here `"t" -> 5` with no node 5) makes the source
index `all_nodes[self.tags[identifier]]` directly and crash with KeyError,
modelled as `none`. -/
theorem c4_checkout_stale_tag_eval :
    checkoutLoom c4state (Ident.str "t") = none ∧
    checkoutLoom c4state (Ident.num 99) = some c4state ∧
    checkoutLoom c4state (Ident.str "zz") = some c4state := by decide

/-! ## Claim C7: node creation and empty text -/

def c7graph : IndexGraph :=
  { all_nodes := [], root_nodes := [] }

/-- Claim C7 counterexample: the claim says creation fails for every empty text
string, but `Node.__post_init__` only rejects `text is None`; the empty string
passes and a node is created. -/
theorem c7_counterexample :
    createNode c7graph "" =
      some { index := 0, text := "", child_indices := [], checked_out := false } := by decide

/-- Claim C7 as amended: node creation fails only when the text is unset
(`None`); for every provided string, including the empty string, it succeeds
and the created node has id equal to the current node count, an empty children
set, and `checked_out = false`. -/
theorem c7_amended_create :
    (∀ i : Nat, mkNode none i = none) ∧
    (∀ (g : IndexGraph) (t : String),
      createNode g t =
        some { index := g.all_nodes.length, text := t, child_indices := [], checked_out := false }) :=
  ⟨fun _ => rfl, fun _ _ => rfl⟩

/-! ## Claim C9: inserting a node with a duplicate id -/

def c9node0 : Node :=
  { index := 0, text := "a", child_indices := [], checked_out := true }

def c9graph : IndexGraph :=
  { all_nodes := [c9node0], root_nodes := [0] }

def c9dup : Node :=
  { index := 0, text := "dup", child_indices := [], checked_out := false }

/-- Claim C9: the claim (following the spec) says `insert_under_parent` on a
node whose id already exists fails with Conflict and leaves the graph in its
prior state.  The source instead silently reassigns `node.index =
len(all_nodes)` and inserts it: inserting a node with the taken id 0 under the
root succeeds, the node is stored under the fresh id 1 and the root gains the
child 1. -/
theorem c9_insert_duplicate_eval :
    insertUnderParent c9graph c9dup (some c9node0) =
      some { all_nodes :=
               [ { index := 0, text := "a", child_indices := [1], checked_out := true }
               , { index := 1, text := "dup", child_indices := [], checked_out := false } ]
             root_nodes := [0] } := by decide

/-! ## Claim C2: the checked-out set after insert/checkout sequences

The claim quantifies over every valid starting forest.  A forest left by a
deletion has gaps in its id space (ids are never renumbered), and on such a
forest a single insert can break the invariant: the fresh id `len(all_nodes)`
can collide with an existing id, upon which `insert_under_parent` silently
overwrites the stored node, orphaning a checked-out descendant.  The
counterexample below starts from the well-formed checked-out forest
`0 -> 3 -> 4` (ids 1 and 2 deleted), where one insert produces the checked-out
set `{0, 4}`, which is not a path.  With the additional hypothesis that the id
space has no gaps — true of every forest reachable by inserts alone — the
invariant is preserved by every insert/checkout sequence (`c2_amended_invariant`
below). -/

def c2g0 : IndexGraph :=
  { all_nodes :=
      [ { index := 0, text := "a", child_indices := [3], checked_out := true }
      , { index := 3, text := "b", child_indices := [4], checked_out := true }
      , { index := 4, text := "c", child_indices := [], checked_out := true } ]
    root_nodes := [0] }

def c2g1 : IndexGraph :=
  applyOps c2g0 [Op.ins "x"]

def c2g1x : IndexGraph :=
  { all_nodes :=
      [ { index := 0, text := "a", child_indices := [3], checked_out := true }
      , { index := 3, text := "x", child_indices := [], checked_out := false }
      , { index := 4, text := "c", child_indices := [3], checked_out := true } ]
    root_nodes := [0] }

lemma c2g1_eval : c2g1 = c2g1x := by decide

/-- Claim C2 counterexample: the starting forest `0 -> 3 -> 4` is well formed
and fully checked out (one active path), yet after the single insert the
checked-out ids are `{0, 4}`, which no root-descending simple path can equal:
the fresh id `len(all_nodes) = 3` collided with the stored node 3, which was
silently overwritten and re-attached under the old tip 4, orphaning node 4. -/
theorem c2_counterexample :
    WellFormed c2g0 ∧ PathInv c2g0 ∧ ¬ PathInv c2g1 := by
  refine ⟨by unfold WellFormed; decide, Or.inr ⟨[0, 3, 4], ⟨0, [3, 4], rfl, by decide⟩,
    by decide, by decide, by decide, by decide⟩, ?_⟩
  rw [c2g1_eval]
  intro h
  rcases h with h | ⟨chain, ⟨r, rest, hcr, hr⟩, hch, hnd, hsub1, hsub2⟩
  · exact absurd h (by decide)
  · have hr0 : r = 0 := by
      have hmr : r ∈ [0] := hr
      simpa using hmr
    subst hr0
    subst hcr
    have h4 : 4 ∈ 0 :: rest := hsub1 4 (by decide)
    have hmem04 : ∀ i ∈ checkedIdxs c2g1x, i = 0 ∨ i = 4 := by decide
    have h0notin : (0 : Nat) ∉ rest := (List.nodup_cons.mp hnd).1
    have hrest_mem : ∀ i ∈ rest, i = 4 := by
      intro i hi
      rcases hmem04 i (hsub2 i (List.mem_cons_of_mem 0 hi)) with rfl | rfl
      · exact absurd hi h0notin
      · rfl
    have hrest : rest = [] ∨ rest = [4] := by
      cases rest with
      | nil => exact Or.inl rfl
      | cons x t =>
        have hx : x = 4 := hrest_mem x (by simp)
        subst hx
        cases t with
        | nil => exact Or.inr rfl
        | cons y u =>
          have hy : y = 4 := hrest_mem y (by simp)
          subst hy
          have hndr := (List.nodup_cons.mp hnd).2
          rw [List.nodup_cons] at hndr
          exact absurd (by simp : (4 : Nat) ∈ 4 :: u) hndr.1
    rcases hrest with rfl | rfl
    · simp at h4
    · have hedge : childEdge c2g1x 0 4 = true := by
        unfold chainEdges at hch
        exact (Bool.and_eq_true_iff.mp hch).1
      exact absurd hedge (by decide)

/-! ## Helper lemmas: lookups and membership -/

lemma contains_iff_mem (l : List Nat) (a : Nat) : l.contains a = true ↔ a ∈ l :=
  List.elem_iff

lemma lookup_mem {g : IndexGraph} {i : Nat} {m : Node} (h : lookup g i = some m) :
    m ∈ g.all_nodes ∧ m.index = i := by
  refine ⟨List.mem_of_find?_eq_some h, ?_⟩
  have hb := List.find?_some h
  simpa using hb

lemma idx_inj {g : IndexGraph} (hnd : (idxList g).Nodup) {a b : Node}
    (ha : a ∈ g.all_nodes) (hb : b ∈ g.all_nodes) (hab : a.index = b.index) : a = b :=
  List.inj_on_of_nodup_map hnd ha hb hab

lemma lookup_eq_some_of_mem {g : IndexGraph} (hnd : (idxList g).Nodup) {n : Node}
    (hn : n ∈ g.all_nodes) : lookup g n.index = some n := by
  rcases h : lookup g n.index with _ | m
  · rw [lookup, List.find?_eq_none] at h
    exact absurd (by simp) (h n hn)
  · rcases lookup_mem h with ⟨hm, hmi⟩
    exact congrArg some (idx_inj hnd hm hn hmi)

lemma find?_unique {α : Type} {p : α → Bool} {l : List α} {x : α}
    (hx : x ∈ l) (hpx : p x = true) (huniq : ∀ y ∈ l, p y = true → y = x) :
    l.find? p = some x := by
  induction l with
  | nil => cases hx
  | cons a t ih =>
    by_cases hpa : p a = true
    · have ha : a = x := huniq a (by simp) hpa
      rw [List.find?_cons_of_pos _ hpa, ha]
    · have hxa : x ≠ a := fun he => hpa (he ▸ hpx)
      have hxt : x ∈ t := by
        rcases List.mem_cons.mp hx with h | h
        · exact absurd h hxa
        · exact h
      rw [List.find?_cons_of_neg _ hpa]
      exact ih hxt (fun y hy hpy => huniq y (List.mem_cons_of_mem a hy) hpy)

lemma getParent_mem {g : IndexGraph} {i : Nat} {p : Node} (h : getParent g i = some p) :
    p ∈ g.all_nodes ∧ i ∈ p.child_indices := by
  refine ⟨List.mem_of_find?_eq_some h, ?_⟩
  have hb := List.find?_some h
  simpa using hb

lemma getParent_isSome {g : IndexGraph} {i : Nat}
    (h : ∃ p ∈ g.all_nodes, i ∈ p.child_indices) : ∃ p, getParent g i = some p := by
  rcases h with ⟨p, hp, hip⟩
  have hs : (g.all_nodes.find? (fun q => q.child_indices.contains i)).isSome := by
    rw [List.find?_isSome]
    exact ⟨p, hp, by simpa using hip⟩
  rcases Option.isSome_iff_exists.mp hs with ⟨q, hq⟩
  exact ⟨q, hq⟩

lemma getChildren_mem {g : IndexGraph} {p m : Node} (h : m ∈ getChildren g p) :
    m ∈ g.all_nodes ∧ m.index ∈ p.child_indices := by
  rcases List.mem_filterMap.mp h with ⟨c, hc, hlk⟩
  rcases lookup_mem hlk with ⟨hm, hmi⟩
  exact ⟨hm, by rw [hmi]; exact hc⟩

lemma mem_getChildren {g : IndexGraph} (hnd : (idxList g).Nodup) {p n : Node}
    (hn : n ∈ g.all_nodes) (hc : n.index ∈ p.child_indices) : n ∈ getChildren g p :=
  List.mem_filterMap.mpr ⟨n.index, hc, lookup_eq_some_of_mem hnd hn⟩

/-! ## Helper lemmas: the upward walk of checkout_path -/

lemma walk_cases {g : IndexGraph} {fuel : Nat} {n : Node} {w : List Node}
    (h : walkToRoot g (fuel + 1) n = some w) :
    (n.index ∈ g.root_nodes ∧ w = [n]) ∨
    (n.index ∉ g.root_nodes ∧ ∃ p w2, getParent g n.index = some p ∧
      walkToRoot g fuel p = some w2 ∧ w = n :: w2) := by
  rw [walkToRoot] at h
  by_cases hr : n.index ∈ g.root_nodes
  · rw [if_pos hr] at h
    exact Or.inl ⟨hr, by simpa using h.symm⟩
  · rw [if_neg hr] at h
    rcases hp : getParent g n.index with _ | p
    · rw [hp] at h; simp at h
    · rw [hp] at h
      simp only [Option.some_bind] at h
      rcases hw : walkToRoot g fuel p with _ | w2
      · rw [hw] at h; simp at h
      · rw [hw] at h
        simp only [Option.map_some', Option.some.injEq] at h
        exact Or.inr ⟨hr, p, w2, rfl, hw, h.symm⟩

lemma walk_shape {g : IndexGraph} {fuel : Nat} {n : Node} {w : List Node}
    (h : walkToRoot g fuel n = some w) : ∃ t, w = n :: t := by
  cases fuel with
  | zero => simp [walkToRoot] at h
  | succ f =>
    rcases walk_cases h with ⟨_, hw⟩ | ⟨_, p, w2, _, _, hw⟩
    · exact ⟨[], hw⟩
    · exact ⟨w2, hw⟩

lemma walk_mem {g : IndexGraph} {fuel : Nat} {n : Node} {w : List Node}
    (h : walkToRoot g fuel n = some w) (hn : n ∈ g.all_nodes) :
    ∀ x ∈ w, x ∈ g.all_nodes := by
  induction fuel generalizing n w with
  | zero => simp [walkToRoot] at h
  | succ f ih =>
    rcases walk_cases h with ⟨_, hw⟩ | ⟨_, p, w2, hp, hw2, hw⟩
    · intro x hx
      rw [hw] at hx
      simp at hx
      rw [hx]
      exact hn
    · intro x hx
      rw [hw] at hx
      rcases List.mem_cons.mp hx with hx | hx
      · rw [hx]; exact hn
      · exact ih hw2 (getParent_mem hp).1 x hx

lemma walk_le {g : IndexGraph} {fuel : Nat}
    (hmono : ∀ q ∈ g.all_nodes, ∀ c ∈ q.child_indices, q.index < c) :
    ∀ {n : Node} {w : List Node}, walkToRoot g fuel n = some w → n ∈ g.all_nodes →
      ∀ x ∈ w, x.index ≤ n.index := by
  induction fuel with
  | zero => intro n w h; simp [walkToRoot] at h
  | succ f ih =>
    intro n w h hn
    rcases walk_cases h with ⟨_, hw⟩ | ⟨_, p, w2, hp, hw2, hw⟩
    · intro x hx
      rw [hw] at hx
      simp at hx
      rw [hx]
    · intro x hx
      rw [hw] at hx
      rcases List.mem_cons.mp hx with hx | hx
      · rw [hx]
      · rcases getParent_mem hp with ⟨hpm, hpc⟩
        have hlt : p.index < n.index := hmono p hpm n.index hpc
        exact le_trans (ih hw2 hpm x hx) (le_of_lt hlt)

lemma walk_pairwise {g : IndexGraph} {fuel : Nat}
    (hmono : ∀ q ∈ g.all_nodes, ∀ c ∈ q.child_indices, q.index < c) :
    ∀ {n : Node} {w : List Node}, walkToRoot g fuel n = some w → n ∈ g.all_nodes →
      List.Pairwise (fun a b => b.index < a.index) w := by
  induction fuel with
  | zero => intro n w h; simp [walkToRoot] at h
  | succ f ih =>
    intro n w h hn
    rcases walk_cases h with ⟨_, hw⟩ | ⟨_, p, w2, hp, hw2, hw⟩
    · rw [hw]; simp
    · rw [hw]
      rcases getParent_mem hp with ⟨hpm, hpc⟩
      have hlt : p.index < n.index := hmono p hpm n.index hpc
      refine List.pairwise_cons.mpr ⟨?_, ih hw2 hpm⟩
      intro x hx
      exact lt_of_le_of_lt (walk_le hmono hw2 hpm x hx) hlt

lemma walk_nonroot {g : IndexGraph} {fuel : Nat} :
    ∀ {n : Node} {w : List Node}, walkToRoot g fuel n = some w →
      ∀ x ∈ w.dropLast, x.index ∉ g.root_nodes := by
  induction fuel with
  | zero => intro n w h; simp [walkToRoot] at h
  | succ f ih =>
    intro n w h
    rcases walk_cases h with ⟨_, hw⟩ | ⟨hnr, p, w2, hp, hw2, hw⟩
    · rw [hw]; simp
    · subst hw
      rcases walk_shape hw2 with ⟨t, ht⟩
      subst ht
      intro x hx
      rw [List.dropLast_cons₂] at hx
      rcases List.mem_cons.mp hx with hx | hx
      · rw [hx]; exact hnr
      · exact ih hw2 x hx

lemma walk_last_root {g : IndexGraph} {fuel : Nat} :
    ∀ {n : Node} {w : List Node}, walkToRoot g fuel n = some w →
      ∃ r, w.getLast? = some r ∧ r.index ∈ g.root_nodes := by
  induction fuel with
  | zero => intro n w h; simp [walkToRoot] at h
  | succ f ih =>
    intro n w h
    rcases walk_cases h with ⟨hr, hw⟩ | ⟨_, p, w2, hp, hw2, hw⟩
    · exact ⟨n, by rw [hw]; rfl, hr⟩
    · rcases ih hw2 with ⟨r, hrl, hrr⟩
      refine ⟨r, ?_, hrr⟩
      rw [hw]
      rcases walk_shape hw2 with ⟨t, ht⟩
      rw [ht] at hrl ⊢
      rw [List.getLast?_cons_cons]
      exact hrl

/-- Each walk element is a child of the next one, and both are stored nodes. -/
lemma walk_adj {g : IndexGraph} {fuel : Nat} :
    ∀ {n : Node} {w : List Node}, walkToRoot g fuel n = some w → n ∈ g.all_nodes →
      List.Chain' (fun a b => a.index ∈ b.child_indices ∧ a ∈ g.all_nodes ∧ b ∈ g.all_nodes) w := by
  induction fuel with
  | zero => intro n w h; simp [walkToRoot] at h
  | succ f ih =>
    intro n w h hn
    rcases walk_cases h with ⟨_, hw⟩ | ⟨_, p, w2, hp, hw2, hw⟩
    · rw [hw]; simp
    · rw [hw]
      rcases getParent_mem hp with ⟨hpm, hpc⟩
      refine List.chain'_cons'.mpr ⟨?_, ih hw2 hpm⟩
      intro y hy
      rcases walk_shape hw2 with ⟨t, ht⟩
      rw [ht] at hy
      simp at hy
      subst hy
      exact ⟨hpc, hn, hpm⟩

lemma walk_isSome {g : IndexGraph}
    (hmono : ∀ q ∈ g.all_nodes, ∀ c ∈ q.child_indices, q.index < c)
    (hpar : ∀ n ∈ g.all_nodes, n.index ∉ g.root_nodes → ∃ p ∈ g.all_nodes, n.index ∈ p.child_indices) :
    ∀ {fuel : Nat} {n : Node}, n ∈ g.all_nodes → n.index < fuel →
      ∃ w, walkToRoot g fuel n = some w := by
  intro fuel
  induction fuel with
  | zero => intro n _ h; cases h
  | succ f ih =>
    intro n hn hlt
    by_cases hr : n.index ∈ g.root_nodes
    · exact ⟨[n], by rw [walkToRoot, if_pos hr]⟩
    · rcases getParent_isSome (hpar n hn hr) with ⟨p, hp⟩
      rcases getParent_mem hp with ⟨hpm, hpc⟩
      have hplt : p.index < f := by
        have h1 : p.index < n.index := hmono p hpm n.index hpc
        omega
      rcases ih hpm hplt with ⟨w2, hw2⟩
      refine ⟨n :: w2, ?_⟩
      rw [walkToRoot, if_neg hr, hp]
      simp only [Option.some_bind, hw2, Option.map_some']

/-! ## Helper lemmas: transport through markOnly -/

lemma markOnly_root_nodes (g : IndexGraph) (ids : List Nat) :
    (markOnly g ids).root_nodes = g.root_nodes := rfl

lemma markOnly_idxList (g : IndexGraph) (ids : List Nat) :
    idxList (markOnly g ids) = idxList g := by
  unfold idxList markOnly
  simp only [List.map_map]
  rfl

lemma lookup_markOnly (g : IndexGraph) (ids : List Nat) (i : Nat) :
    lookup (markOnly g ids) i =
      (lookup g i).map (fun m => setChecked (ids.contains m.index) m) := by
  unfold lookup markOnly
  rw [List.find?_map]
  rfl

lemma mem_markOnly {g : IndexGraph} {ids : List Nat} {x : Node} :
    x ∈ (markOnly g ids).all_nodes ↔
      ∃ m ∈ g.all_nodes, x = setChecked (ids.contains m.index) m := by
  unfold markOnly
  simp only [List.mem_map]
  constructor
  · rintro ⟨m, hm, hx⟩; exact ⟨m, hm, hx.symm⟩
  · rintro ⟨m, hm, hx⟩; exact ⟨m, hm, hx.symm⟩

lemma checked_map_filter (ids : List Nat) : ∀ l : List Node,
    ((l.map (fun m => setChecked (ids.contains m.index) m)).filter
        (fun m => m.checked_out)).map (fun m => m.index)
      = (l.filter (fun m => ids.contains m.index)).map (fun m => m.index) := by
  intro l
  induction l with
  | nil => rfl
  | cons a t ih =>
    by_cases h : ids.contains a.index = true
    · simp only [List.map_cons, List.filter_cons]
      rw [show (setChecked (ids.contains a.index) a).checked_out = ids.contains a.index from rfl]
      rw [h]
      simp only [if_pos trivial, List.map_cons]
      rw [ih]
      rfl
    · have h0 : ids.contains a.index = false := by
        cases hc : ids.contains a.index
        · rfl
        · exact absurd hc h
      simp only [List.map_cons, List.filter_cons]
      rw [show (setChecked (ids.contains a.index) a).checked_out = ids.contains a.index from rfl]
      rw [h0]
      simp only [Bool.false_eq_true, if_neg (by simp : ¬ (False : Prop))]
      exact ih

lemma checkedIdxs_markOnly (g : IndexGraph) (ids : List Nat) (i : Nat) :
    i ∈ checkedIdxs (markOnly g ids) ↔ i ∈ idxList g ∧ i ∈ ids := by
  unfold checkedIdxs markOnly idxList
  rw [show (({ g with all_nodes := g.all_nodes.map (fun m => setChecked (ids.contains m.index) m) } : IndexGraph)).all_nodes = g.all_nodes.map (fun m => setChecked (ids.contains m.index) m) from rfl]
  rw [checked_map_filter]
  simp only [List.mem_map, List.mem_filter]
  constructor
  · rintro ⟨m, ⟨hm, hc⟩, hi⟩
    refine ⟨⟨m, hm, hi⟩, ?_⟩
    rw [← hi]
    exact (contains_iff_mem _ _).mp hc
  · rintro ⟨⟨m, hm, hi⟩, hids⟩
    refine ⟨m, ⟨hm, ?_⟩, hi⟩
    rw [← hi] at hids
    exact (contains_iff_mem _ _).mpr hids

/-! ## WellFormed accessors -/

lemma wf_nodupIdx {g : IndexGraph} (h : WellFormed g) : (idxList g).Nodup := h.1

lemma wf_childNodup {g : IndexGraph} (h : WellFormed g) :
    ∀ n ∈ g.all_nodes, n.child_indices.Nodup := h.2.1

lemma wf_mono {g : IndexGraph} (h : WellFormed g) :
    ∀ n ∈ g.all_nodes, ∀ c ∈ n.child_indices, n.index < c := h.2.2.1

lemma wf_childMem {g : IndexGraph} (h : WellFormed g) :
    ∀ n ∈ g.all_nodes, ∀ c ∈ n.child_indices, c ∈ idxList g := h.2.2.2.1

lemma wf_rootsNodup {g : IndexGraph} (h : WellFormed g) : g.root_nodes.Nodup :=
  h.2.2.2.2.1

lemma wf_rootsMem {g : IndexGraph} (h : WellFormed g) :
    ∀ r ∈ g.root_nodes, r ∈ idxList g := h.2.2.2.2.2.1

lemma wf_rootsNoParent {g : IndexGraph} (h : WellFormed g) :
    ∀ n ∈ g.all_nodes, ∀ c ∈ n.child_indices, c ∉ g.root_nodes := h.2.2.2.2.2.2.1

lemma wf_parentUnique {g : IndexGraph} (h : WellFormed g) :
    ∀ p ∈ g.all_nodes, ∀ q ∈ g.all_nodes, ∀ c : Nat,
      c ∈ p.child_indices → c ∈ q.child_indices → p = q := h.2.2.2.2.2.2.2.1

lemma wf_nonRootParent {g : IndexGraph} (h : WellFormed g) :
    ∀ n ∈ g.all_nodes, n.index ∉ g.root_nodes →
      ∃ p ∈ g.all_nodes, n.index ∈ p.child_indices := h.2.2.2.2.2.2.2.2

/-! ## The active chain produced by checkout_path -/

lemma chainEdges_iff_chain' (g : IndexGraph) : ∀ l : List Nat,
    chainEdges g l = true ↔ List.Chain' (fun a b => childEdge g a b = true) l := by
  intro l
  induction l with
  | nil => simp [chainEdges]
  | cons a t ih =>
    cases t with
    | nil => simp [chainEdges]
    | cons b u =>
      rw [chainEdges, List.chain'_cons, Bool.and_eq_true_iff]
      exact and_congr Iff.rfl ih

lemma childEdge_markOnly {g : IndexGraph} (hnd : (idxList g).Nodup) (ids : List Nat)
    {b : Node} (hb : b ∈ g.all_nodes) {a : Nat} (ha : a ∈ b.child_indices) :
    childEdge (markOnly g ids) b.index a = true := by
  unfold childEdge
  rw [lookup_markOnly, lookup_eq_some_of_mem hnd hb]
  simp only [Option.map_some']
  exact (contains_iff_mem _ _).mpr ha

lemma checkout_chain {g : IndexGraph} (hV : Valid g) {n : Node} (hn : n ∈ g.all_nodes)
    {w : List Node} (hw : walkToRoot g g.all_nodes.length n = some w) :
    IsActiveChain (markOnly g (w.map (fun m => m.index)))
      ((w.map (fun m => m.index)).reverse) := by
  rcases hV with ⟨hWF, hCt⟩
  have hmem := walk_mem hw hn
  refine ⟨?_, ?_, ?_, ?_, ?_⟩
  · rcases walk_last_root hw with ⟨r, hrl, hrr⟩
    rcases hh : (w.map (fun m => m.index)).reverse with _ | ⟨r0, rest⟩
    · exfalso
      rcases walk_shape hw with ⟨t, ht⟩
      rw [ht] at hh
      simp at hh
    · refine ⟨r0, rest, hh, ?_⟩
      have hhd : ((w.map (fun m => m.index)).reverse).head? = some r0 := by
        rw [hh]; rfl
      rw [List.head?_reverse] at hhd
      have hgl : (w.map (fun m => m.index)).getLast? = (w.getLast?).map (fun m => m.index) := by
        rw [List.getLast?_map]
      rw [hgl, hrl] at hhd
      simp at hhd
      rw [markOnly_root_nodes, ← hhd]
      exact hrr
  · rw [chainEdges_iff_chain', ← List.map_reverse, List.chain'_map, List.chain'_reverse]
    have hadj := walk_adj hw hn
    refine List.Chain'.imp ?_ hadj
    intro a b hab
    rcases hab with ⟨hc, hma, hmb⟩
    exact childEdge_markOnly (wf_nodupIdx hWF) _ hmb hc
  · rw [List.nodup_reverse]
    have hpw := walk_pairwise (wf_mono hWF) hw hn
    rw [List.Nodup, List.pairwise_map]
    refine hpw.imp ?_
    intro a b hlt
    exact fun he => absurd he (by omega)
  · intro i hi
    rw [checkedIdxs_markOnly] at hi
    rw [List.mem_reverse]
    exact hi.2
  · intro i hi
    rw [List.mem_reverse] at hi
    rw [checkedIdxs_markOnly]
    refine ⟨?_, hi⟩
    rcases List.mem_map.mp hi with ⟨m, hm, hmi⟩
    exact List.mem_map.mpr ⟨m, hmem m hm, hmi⟩

/-! ## Validity is preserved by marking -/

lemma valid_markOnly {g : IndexGraph} (hV : Valid g) (ids : List Nat) :
    Valid (markOnly g ids) := by
  rcases hV with ⟨hWF, hCt⟩
  have hidx := markOnly_idxList g ids
  constructor
  · refine ⟨?_, ?_, ?_, ?_, ?_, ?_, ?_, ?_, ?_⟩
    · rw [hidx]; exact wf_nodupIdx hWF
    · intro x hx
      rcases mem_markOnly.mp hx with ⟨m, hm, he⟩
      rw [he]
      exact wf_childNodup hWF m hm
    · intro x hx c hc
      rcases mem_markOnly.mp hx with ⟨m, hm, he⟩
      rw [he] at hc ⊢
      exact wf_mono hWF m hm c hc
    · intro x hx c hc
      rcases mem_markOnly.mp hx with ⟨m, hm, he⟩
      rw [he] at hc
      rw [hidx]
      exact wf_childMem hWF m hm c hc
    · rw [markOnly_root_nodes]; exact wf_rootsNodup hWF
    · rw [markOnly_root_nodes, hidx]; exact wf_rootsMem hWF
    · intro x hx c hc
      rcases mem_markOnly.mp hx with ⟨m, hm, he⟩
      rw [he] at hc
      rw [markOnly_root_nodes]
      exact wf_rootsNoParent hWF m hm c hc
    · intro p hp q hq c hcp hcq
      rcases mem_markOnly.mp hp with ⟨mp, hmp, hep⟩
      rcases mem_markOnly.mp hq with ⟨mq, hmq, heq⟩
      rw [hep] at hcp
      rw [heq] at hcq
      rw [hep, heq, wf_parentUnique hWF mp hmp mq hmq c hcp hcq]
    · intro x hx hxr
      rcases mem_markOnly.mp hx with ⟨m, hm, he⟩
      rw [markOnly_root_nodes] at hxr
      rw [he] at hxr
      rcases wf_nonRootParent hWF m hm hxr with ⟨p, hpm, hpc⟩
      refine ⟨setChecked (ids.contains p.index) p, mem_markOnly.mpr ⟨p, hpm, rfl⟩, ?_⟩
      rw [he]
      exact hpc
  · intro x hx
    rcases mem_markOnly.mp hx with ⟨m, hm, he⟩
    have hl : (markOnly g ids).all_nodes.length = g.all_nodes.length := by
      unfold markOnly
      simp
    rw [hl, he]
    exact hCt m hm

/-! ## Path membership and insert characterization -/

lemma descendChecked_acc {g : IndexGraph} :
    ∀ (fuel : Nat) (nodes acc : List Node), ∃ t, descendChecked g fuel nodes acc = acc ++ t := by
  intro fuel
  induction fuel with
  | zero => intro nodes acc; exact ⟨[], by rw [descendChecked]; simp⟩
  | succ f ih =>
    intro nodes acc
    rw [descendChecked]
    rcases hf : nodes.find? (fun m => m.checked_out) with _ | m
    · exact ⟨[], by rw [hf]; simp⟩
    · rcases ih (getChildren g m) (acc ++ [m]) with ⟨t, ht⟩
      refine ⟨m :: t, ?_⟩
      rw [hf]
      show descendChecked g f (getChildren g m) (acc ++ [m]) = acc ++ m :: t
      rw [ht]
      simp

lemma descendChecked_mem {g : IndexGraph} :
    ∀ (fuel : Nat) (nodes acc : List Node),
      (∀ x ∈ nodes, x ∈ g.all_nodes) → (∀ x ∈ acc, x ∈ g.all_nodes) →
      ∀ x ∈ descendChecked g fuel nodes acc, x ∈ g.all_nodes := by
  intro fuel
  induction fuel with
  | zero =>
    intro nodes acc _ hacc x hx
    rw [descendChecked] at hx
    exact hacc x hx
  | succ f ih =>
    intro nodes acc hns hacc x hx
    rw [descendChecked] at hx
    rcases hf : nodes.find? (fun m => m.checked_out) with _ | m
    · rw [hf] at hx; exact hacc x hx
    · rw [hf] at hx
      have hm : m ∈ g.all_nodes := hns m (List.mem_of_find?_eq_some hf)
      refine ih _ _ ?_ ?_ x hx
      · intro y hy; exact (getChildren_mem hy).1
      · intro y hy
        rcases List.mem_append.mp hy with hy | hy
        · exact hacc y hy
        · simp at hy; rw [hy]; exact hm

lemma pathNodes_mem {g : IndexGraph} : ∀ x ∈ pathNodes g, x ∈ g.all_nodes := by
  intro x hx
  rw [pathNodes] at hx
  rcases hf : (rootNodes g).find? (fun m => m.checked_out) with _ | r
  · rw [hf] at hx; cases hx
  · rw [hf] at hx
    have hr : r ∈ g.all_nodes := by
      have hrm := List.mem_of_find?_eq_some hf
      rcases List.mem_filterMap.mp hrm with ⟨i, _, hlk⟩
      exact (lookup_mem hlk).1
    refine descendChecked_mem _ _ _ ?_ ?_ x hx
    · intro y hy; exact (getChildren_mem hy).1
    · intro y hy; simp at hy; rw [hy]; exact hr

lemma find?_ext {α : Type} {p q : α → Bool} (h : ∀ a, p a = q a) :
    ∀ l : List α, l.find? p = l.find? q := by
  intro l
  induction l with
  | nil => rfl
  | cons a t ih =>
    rw [List.find?_cons, List.find?_cons, h a, ih]

lemma length_not_mem_idx {g : IndexGraph} (hCt : Contiguous g) :
    g.all_nodes.length ∉ idxList g := by
  intro h
  rcases List.mem_map.mp h with ⟨m, hm, hmi⟩
  have := hCt m hm
  omega

lemma memberIdx_length {g : IndexGraph} (hCt : Contiguous g) :
    memberIdx g g.all_nodes.length = false := by
  unfold memberIdx lookup
  rw [List.find?_eq_none.mpr]
  · rfl
  · intro m hm
    simp only [beq_iff_eq]
    have := hCt m hm
    omega

/-- The parent update of `insert_under_parent` keyed on the tip id. -/
def updChild (ti c : Nat) (m : Node) : Node :=
  if m.index == ti then { m with child_indices := setAdd m.child_indices c } else m

lemma updChild_index (ti c : Nat) (m : Node) : (updChild ti c m).index = m.index := by
  unfold updChild
  by_cases h : (m.index == ti) = true
  · rw [if_pos h]
  · rw [if_neg h]

lemma updChild_checked (ti c : Nat) (m : Node) :
    (updChild ti c m).checked_out = m.checked_out := by
  unfold updChild
  by_cases h : (m.index == ti) = true
  · rw [if_pos h]
  · rw [if_neg h]

lemma updChild_sub (ti c : Nat) (m : Node) :
    ∀ x ∈ m.child_indices, x ∈ (updChild ti c m).child_indices := by
  intro x hx
  unfold updChild
  by_cases h : (m.index == ti) = true
  · rw [if_pos h]
    unfold setAdd
    by_cases hc : m.child_indices.contains c = true
    · rw [if_pos hc]; exact hx
    · rw [if_neg hc]; exact List.mem_append_left _ hx
  · rw [if_neg h]; exact hx

lemma updChild_sup {ti c : Nat} {m : Node} :
    ∀ x ∈ (updChild ti c m).child_indices, x ∈ m.child_indices ∨ (x = c ∧ m.index = ti) := by
  intro x hx
  unfold updChild at hx
  by_cases h : (m.index == ti) = true
  · rw [if_pos h] at hx
    unfold setAdd at hx
    by_cases hc : m.child_indices.contains c = true
    · rw [if_pos hc] at hx; exact Or.inl hx
    · rw [if_neg hc] at hx
      rcases List.mem_append.mp hx with hx | hx
      · exact Or.inl hx
      · simp at hx
        exact Or.inr ⟨hx, by simpa using h⟩
  · rw [if_neg h] at hx; exact Or.inl hx

/-- The node built by `_create_node` for an insert. -/
def freshNode (g : IndexGraph) (t : String) : Node :=
  { index := g.all_nodes.length, text := t, child_indices := [], checked_out := false }

/-- The graph after a fresh insert under the node with id `ti`. -/
def insTip (g : IndexGraph) (ti : Nat) (t : String) : IndexGraph :=
  { g with all_nodes := (g.all_nodes.map (updChild ti g.all_nodes.length)) ++ [freshNode g t] }

/-- The graph after a fresh insert as a new root. -/
def insRoot (g : IndexGraph) (t : String) : IndexGraph :=
  { g with all_nodes := g.all_nodes ++ [freshNode g t]
           root_nodes := g.root_nodes ++ [g.all_nodes.length] }

/-- What `applyOp` does on an insert: attach a fresh node under the tip, or
start a fresh root when no path is active. -/
lemma applyOp_ins_eq (g : IndexGraph) (hV : Valid g) (t : String) :
    (∃ tipN, (pathNodes g).getLast? = some tipN ∧ tipN ∈ g.all_nodes ∧
      applyOp g (.ins t) = insTip g tipN.index t) ∨
    ((pathNodes g).getLast? = none ∧ applyOp g (.ins t) = insRoot g t) := by
  rcases hV with ⟨hWF, hCt⟩
  rcases hl : (pathNodes g).getLast? with _ | tipN
  · refine Or.inr ⟨rfl, ?_⟩
    rw [applyOp]
    rw [hl]
    unfold addRootNode
    rw [memberIdx_length hCt]
    simp only [Bool.false_eq_true, if_neg (by simp : ¬ (False : Prop))]
    have hroot : g.all_nodes.length ∉
        ({ g with all_nodes := g.all_nodes ++
          [{ index := g.all_nodes.length, text := t, child_indices := [], checked_out := false }] } :
          IndexGraph).root_nodes := by
      intro hmem
      exact absurd (wf_rootsMem hWF _ hmem) (length_not_mem_idx hCt)
    rw [if_neg hroot]
    rfl
  · have htip : tipN ∈ g.all_nodes := pathNodes_mem tipN (List.mem_of_mem_getLast? hl)
    refine Or.inl ⟨tipN, rfl, htip, ?_⟩
    rw [applyOp]
    rw [hl]
    unfold insertUnderParent
    rw [memberIdx_length hCt]
    simp only [Bool.false_eq_true, if_neg (by simp : ¬ (False : Prop))]
    unfold dictAssign
    have hany : ((g.all_nodes.map (fun m =>
        if m.index == tipN.index then
          { m with child_indices := setAdd m.child_indices g.all_nodes.length } else m)).any
          (fun m => m.index == g.all_nodes.length)) = false := by
      rw [List.any_eq_false]
      intro m hm
      rcases List.mem_map.mp hm with ⟨m0, hm0, he⟩
      have hidx : m.index = m0.index := by
        rw [← he]
        exact updChild_index tipN.index g.all_nodes.length m0
      simp only [beq_iff_eq, hidx]
      have := hCt m0 hm0
      omega
    rw [hany]
    simp only [Bool.false_eq_true, if_neg (by simp : ¬ (False : Prop))]
    rfl

/-! ## Preservation of validity and the invariant by insert -/

lemma map_ext_mem {α β : Type} {f h : α → β} :
    ∀ {l : List α}, (∀ a ∈ l, f a = h a) → l.map f = l.map h := by
  intro l
  induction l with
  | nil => intro _; rfl
  | cons a t ih =>
    intro he
    rw [List.map_cons, List.map_cons, he a (by simp), ih (fun x hx => he x (by simp [hx]))]

lemma checkedIdxs_map_pres {F : Node → Node}
    (hidx : ∀ m, (F m).index = m.index) (hck : ∀ m, (F m).checked_out = m.checked_out) :
    ∀ l : List Node,
      ((l.map F).filter (fun m => m.checked_out)).map (fun m => m.index)
        = (l.filter (fun m => m.checked_out)).map (fun m => m.index) := by
  intro l
  induction l with
  | nil => rfl
  | cons a t ih =>
    rw [List.map_cons, List.filter_cons, List.filter_cons, hck a]
    by_cases h : a.checked_out = true
    · rw [h]
      simp only [if_pos trivial, List.map_cons, hidx a, ih]
    · have h0 : a.checked_out = false := by
        cases hc : a.checked_out
        · rfl
        · exact absurd hc h
      rw [h0]
      simp only [Bool.false_eq_true, if_neg (by simp : ¬ (False : Prop))]
      exact ih

lemma checkedIdxs_insTip (g : IndexGraph) (ti : Nat) (t : String) :
    checkedIdxs (insTip g ti t) = checkedIdxs g := by
  unfold checkedIdxs insTip
  rw [List.filter_append, List.map_append]
  rw [checkedIdxs_map_pres (updChild_index ti g.all_nodes.length)
    (updChild_checked ti g.all_nodes.length)]
  rw [show (List.filter (fun m => m.checked_out) [freshNode g t]) = [] from rfl]
  simp

lemma checkedIdxs_insRoot (g : IndexGraph) (t : String) :
    checkedIdxs (insRoot g t) = checkedIdxs g := by
  unfold checkedIdxs insRoot
  rw [List.filter_append, List.map_append]
  rw [show (List.filter (fun m => m.checked_out) [freshNode g t]) = [] from rfl]
  simp

lemma idxList_insTip (g : IndexGraph) (ti : Nat) (t : String) :
    idxList (insTip g ti t) = idxList g ++ [g.all_nodes.length] := by
  unfold idxList insTip freshNode
  rw [List.map_append, List.map_map]
  rw [map_ext_mem (fun m _ => by
    show (updChild ti g.all_nodes.length m).index = m.index
    exact updChild_index _ _ m)]
  rfl

lemma idxList_insRoot (g : IndexGraph) (t : String) :
    idxList (insRoot g t) = idxList g ++ [g.all_nodes.length] := by
  unfold idxList insRoot freshNode
  rw [List.map_append]
  rfl

lemma lookup_insTip {g : IndexGraph} {a : Nat} {p : Node} (hp : lookup g a = some p)
    (ti : Nat) (t : String) :
    lookup (insTip g ti t) a = some (updChild ti g.all_nodes.length p) := by
  unfold lookup insTip
  rw [List.find?_append, List.find?_map]
  rw [find?_ext (fun m => by
    show ((updChild ti g.all_nodes.length m).index == a) = (m.index == a)
    rw [updChild_index])]
  rw [show g.all_nodes.find? (fun m => m.index == a) = some p from hp]
  rfl

lemma lookup_insRoot {g : IndexGraph} {a : Nat} {p : Node} (hp : lookup g a = some p)
    (t : String) :
    lookup (insRoot g t) a = some p := by
  unfold lookup insRoot
  rw [List.find?_append]
  rw [show g.all_nodes.find? (fun m => m.index == a) = some p from hp]
  rfl

lemma childEdge_insTip {g : IndexGraph} {a b : Nat} (h : childEdge g a b = true)
    (ti : Nat) (t : String) : childEdge (insTip g ti t) a b = true := by
  unfold childEdge at h ⊢
  rcases hp : lookup g a with _ | p
  · rw [hp] at h; cases h
  · rw [hp] at h
    rw [lookup_insTip hp ti t]
    exact (contains_iff_mem _ _).mpr
      (updChild_sub ti g.all_nodes.length p b ((contains_iff_mem _ _).mp h))

lemma childEdge_insRoot {g : IndexGraph} {a b : Nat} (h : childEdge g a b = true)
    (t : String) : childEdge (insRoot g t) a b = true := by
  unfold childEdge at h ⊢
  rcases hp : lookup g a with _ | p
  · rw [hp] at h; cases h
  · rw [hp] at h
    rw [lookup_insRoot hp t]
    exact h

lemma chainEdges_mono {g g2 : IndexGraph}
    (h : ∀ a b : Nat, childEdge g a b = true → childEdge g2 a b = true) :
    ∀ l : List Nat, chainEdges g l = true → chainEdges g2 l = true := by
  intro l
  induction l with
  | nil => intro _; rfl
  | cons a s ih =>
    cases s with
    | nil => intro _; rfl
    | cons b u =>
      intro hc
      rw [chainEdges, Bool.and_eq_true_iff] at hc ⊢
      exact ⟨h a b hc.1, ih hc.2⟩

lemma pathInv_insTip {g : IndexGraph} (hP : PathInv g) (ti : Nat) (t : String) :
    PathInv (insTip g ti t) := by
  rcases hP with h | ⟨chain, ⟨r, rest, hcr, hr⟩, hch, hnd, hs1, hs2⟩
  · left
    rw [checkedIdxs_insTip]
    exact h
  · right
    refine ⟨chain, ⟨r, rest, hcr, hr⟩, chainEdges_mono
      (fun a b hab => childEdge_insTip hab ti t) chain hch, hnd, ?_, ?_⟩
    · intro i hi
      rw [checkedIdxs_insTip] at hi
      exact hs1 i hi
    · intro i hi
      rw [checkedIdxs_insTip]
      exact hs2 i hi

lemma pathInv_insRoot {g : IndexGraph} (hP : PathInv g) (t : String) :
    PathInv (insRoot g t) := by
  rcases hP with h | ⟨chain, ⟨r, rest, hcr, hr⟩, hch, hnd, hs1, hs2⟩
  · left
    rw [checkedIdxs_insRoot]
    exact h
  · right
    refine ⟨chain, ⟨r, rest, hcr, List.mem_append_left _ hr⟩, chainEdges_mono
      (fun a b hab => childEdge_insRoot hab t) chain hch, hnd, ?_, ?_⟩
    · intro i hi
      rw [checkedIdxs_insRoot] at hi
      exact hs1 i hi
    · intro i hi
      rw [checkedIdxs_insRoot]
      exact hs2 i hi

lemma mem_insTip {g : IndexGraph} {ti : Nat} {t : String} {x : Node} :
    x ∈ (insTip g ti t).all_nodes ↔
      (∃ m ∈ g.all_nodes, updChild ti g.all_nodes.length m = x) ∨ x = freshNode g t := by
  unfold insTip
  rw [show ({ g with all_nodes := (g.all_nodes.map (updChild ti g.all_nodes.length)) ++ [freshNode g t] } : IndexGraph).all_nodes = (g.all_nodes.map (updChild ti g.all_nodes.length)) ++ [freshNode g t] from rfl]
  rw [List.mem_append, List.mem_map]
  simp

lemma setAdd_mem (l : List Nat) (c : Nat) : c ∈ setAdd l c := by
  unfold setAdd
  by_cases h : l.contains c = true
  · rw [if_pos h]
    exact (contains_iff_mem _ _).mp h
  · rw [if_neg h]
    simp

lemma setAdd_nodup {l : List Nat} (hl : l.Nodup) (c : Nat) : (setAdd l c).Nodup := by
  unfold setAdd
  by_cases h : l.contains c = true
  · rw [if_pos h]
    exact hl
  · rw [if_neg h]
    rw [List.nodup_append]
    refine ⟨hl, by simp, ?_⟩
    intro x hx hc
    simp at hc
    rw [hc] at hx
    exact h ((contains_iff_mem _ _).mpr hx)

lemma valid_insTip {g : IndexGraph} (hV : Valid g) {ti : Nat} (hti : ti ∈ idxList g)
    (t : String) : Valid (insTip g ti t) := by
  rcases hV with ⟨hWF, hCt⟩
  have hidx := idxList_insTip g ti t
  have hlenfree := length_not_mem_idx hCt
  have hchildlt : ∀ m ∈ g.all_nodes, ∀ c ∈ m.child_indices, c < g.all_nodes.length := by
    intro m hm c hc
    rcases List.mem_map.mp (wf_childMem hWF m hm c hc) with ⟨q, hq, hqe⟩
    rw [← hqe]
    exact hCt q hq
  have hrootlt : ∀ r ∈ g.root_nodes, r < g.all_nodes.length := by
    intro r hr
    rcases List.mem_map.mp (wf_rootsMem hWF r hr) with ⟨q, hq, hqe⟩
    rw [← hqe]
    exact hCt q hq
  constructor
  · refine ⟨?_, ?_, ?_, ?_, ?_, ?_, ?_, ?_, ?_⟩
    · rw [hidx, List.nodup_append]
      exact ⟨wf_nodupIdx hWF, by simp, by
        intro x hx hc
        simp at hc
        rw [hc] at hx
        exact hlenfree hx⟩
    · intro x hx
      rcases mem_insTip.mp hx with ⟨m, hm, he⟩ | he
      · rw [← he]
        unfold updChild
        by_cases hi : (m.index == ti) = true
        · rw [if_pos hi]
          refine setAdd_nodup (wf_childNodup hWF m hm) _
        · rw [if_neg hi]
          exact wf_childNodup hWF m hm
      · rw [he]
        simp [freshNode]
    · intro x hx c hc
      rcases mem_insTip.mp hx with ⟨m, hm, he⟩ | he
      · rw [← he] at hc
        rw [← he, updChild_index]
        rcases updChild_sup _ hc with hc | ⟨hcl, _⟩
        · exact wf_mono hWF m hm c hc
        · rw [hcl]
          exact hCt m hm
      · rw [he] at hc
        simp [freshNode] at hc
    · intro x hx c hc
      rw [hidx]
      rcases mem_insTip.mp hx with ⟨m, hm, he⟩ | he
      · rw [← he] at hc
        rcases updChild_sup _ hc with hc | ⟨hcl, _⟩
        · exact List.mem_append_left _ (wf_childMem hWF m hm c hc)
        · rw [hcl]
          simp
      · rw [he] at hc
        simp [freshNode] at hc
    · show g.root_nodes.Nodup
      exact wf_rootsNodup hWF
    · intro r hr
      rw [hidx]
      exact List.mem_append_left _ (wf_rootsMem hWF r hr)
    · intro x hx c hc
      rcases mem_insTip.mp hx with ⟨m, hm, he⟩ | he
      · rw [← he] at hc
        rcases updChild_sup _ hc with hc | ⟨hcl, _⟩
        · exact wf_rootsNoParent hWF m hm c hc
        · rw [hcl]
          intro hmem
          exact absurd (wf_rootsMem hWF _ hmem) hlenfree
      · rw [he] at hc
        simp [freshNode] at hc
    · intro p hp q hq c hcp hcq
      rcases mem_insTip.mp hp with ⟨mp, hmp, hep⟩ | hep
      · rcases mem_insTip.mp hq with ⟨mq, hmq, heq⟩ | heq
        · rw [← hep] at hcp
          rw [← heq] at hcq
          rcases updChild_sup _ hcp with hcp | ⟨hcl, hpt⟩
          · rcases updChild_sup _ hcq with hcq | ⟨hcl2, hqt⟩
            · rw [← hep, ← heq, wf_parentUnique hWF mp hmp mq hmq c hcp hcq]
            · rw [hcl2] at hcp
              exact absurd (hchildlt mp hmp _ hcp) (by omega)
          · rcases updChild_sup _ hcq with hcq | ⟨hcl2, hqt⟩
            · rw [hcl] at hcq
              exact absurd (hchildlt mq hmq _ hcq) (by omega)
            · have he : mp = mq :=
                idx_inj (wf_nodupIdx hWF) hmp hmq (by rw [hpt, hqt])
              rw [← hep, ← heq, he]
        · rw [heq] at hcq
          simp [freshNode] at hcq
      · rw [hep] at hcp
        simp [freshNode] at hcp
    · intro x hx hxr
      rcases mem_insTip.mp hx with ⟨m, hm, he⟩ | he
      · rw [← he, updChild_index] at hxr
        rcases wf_nonRootParent hWF m hm hxr with ⟨p, hpm, hpc⟩
        refine ⟨updChild ti g.all_nodes.length p, mem_insTip.mpr (Or.inl ⟨p, hpm, rfl⟩), ?_⟩
        rw [← he, updChild_index]
        exact updChild_sub _ _ p m.index hpc
      · rcases List.mem_map.mp hti with ⟨nti, hnti, hntie⟩
        refine ⟨updChild ti g.all_nodes.length nti,
          mem_insTip.mpr (Or.inl ⟨nti, hnti, rfl⟩), ?_⟩
        rw [he]
        show (freshNode g t).index ∈ (updChild ti g.all_nodes.length nti).child_indices
        unfold updChild
        rw [if_pos (by simp [hntie])]
        show (freshNode g t).index ∈ setAdd nti.child_indices g.all_nodes.length
        rw [show (freshNode g t).index = g.all_nodes.length from rfl]
        exact setAdd_mem _ _
  · intro x hx
    have hlen : (insTip g ti t).all_nodes.length = g.all_nodes.length + 1 := by
      unfold insTip
      simp
    rw [hlen]
    rcases mem_insTip.mp hx with ⟨m, hm, he⟩ | he
    · rw [← he, updChild_index]
      have := hCt m hm
      omega
    · rw [he]
      show g.all_nodes.length < g.all_nodes.length + 1
      omega

lemma valid_insRoot {g : IndexGraph} (hV : Valid g) (t : String) :
    Valid (insRoot g t) := by
  rcases hV with ⟨hWF, hCt⟩
  have hidx := idxList_insRoot g t
  have hlenfree := length_not_mem_idx hCt
  have hroots : (insRoot g t).root_nodes = g.root_nodes ++ [g.all_nodes.length] := rfl
  have hmem : ∀ {x : Node}, x ∈ (insRoot g t).all_nodes ↔
      x ∈ g.all_nodes ∨ x = freshNode g t := by
    intro x
    show x ∈ g.all_nodes ++ [freshNode g t] ↔ x ∈ g.all_nodes ∨ x = freshNode g t
    rw [List.mem_append]
    simp
  have hrootlt : ∀ r ∈ g.root_nodes, r < g.all_nodes.length := by
    intro r hr
    rcases List.mem_map.mp (wf_rootsMem hWF r hr) with ⟨q, hq, hqe⟩
    rw [← hqe]
    exact hCt q hq
  have hchildlt : ∀ m ∈ g.all_nodes, ∀ c ∈ m.child_indices, c < g.all_nodes.length := by
    intro m hm c hc
    rcases List.mem_map.mp (wf_childMem hWF m hm c hc) with ⟨q, hq, hqe⟩
    rw [← hqe]
    exact hCt q hq
  constructor
  · refine ⟨?_, ?_, ?_, ?_, ?_, ?_, ?_, ?_, ?_⟩
    · rw [hidx, List.nodup_append]
      exact ⟨wf_nodupIdx hWF, by simp, by
        intro x hx hc
        simp at hc
        rw [hc] at hx
        exact hlenfree hx⟩
    · intro x hx
      rcases hmem.mp hx with hx | hx
      · exact wf_childNodup hWF x hx
      · rw [hx]
        simp [freshNode]
    · intro x hx c hc
      rcases hmem.mp hx with hx | hx
      · exact wf_mono hWF x hx c hc
      · rw [hx] at hc
        simp [freshNode] at hc
    · intro x hx c hc
      rw [hidx]
      rcases hmem.mp hx with hx | hx
      · exact List.mem_append_left _ (wf_childMem hWF x hx c hc)
      · rw [hx] at hc
        simp [freshNode] at hc
    · rw [hroots, List.nodup_append]
      refine ⟨wf_rootsNodup hWF, by simp, ?_⟩
      intro x hx hc
      simp at hc
      rw [hc] at hx
      exact absurd (hrootlt _ hx) (by omega)
    · intro r hr
      rw [hroots] at hr
      rw [hidx]
      rcases List.mem_append.mp hr with hr | hr
      · exact List.mem_append_left _ (wf_rootsMem hWF r hr)
      · simp at hr
        rw [hr]
        simp
    · intro x hx c hc
      rw [hroots]
      rcases hmem.mp hx with hx | hx
      · intro hcmem
        rcases List.mem_append.mp hcmem with hcm | hcm
        · exact wf_rootsNoParent hWF x hx c hc hcm
        · simp at hcm
          rw [hcm] at hc
          exact absurd (hchildlt x hx _ hc) (by omega)
      · rw [hx] at hc
        simp [freshNode] at hc
    · intro p hp q hq c hcp hcq
      rcases hmem.mp hp with hp | hp
      · rcases hmem.mp hq with hq | hq
        · exact wf_parentUnique hWF p hp q hq c hcp hcq
        · rw [hq] at hcq
          simp [freshNode] at hcq
      · rw [hp] at hcp
        simp [freshNode] at hcp
    · intro x hx hxr
      rw [hroots] at hxr
      rcases hmem.mp hx with hx | hx
      · have hxr0 : x.index ∉ g.root_nodes := by
          intro hmemr
          exact hxr (List.mem_append_left _ hmemr)
        rcases wf_nonRootParent hWF x hx hxr0 with ⟨p, hpm, hpc⟩
        exact ⟨p, hmem.mpr (Or.inl hpm), hpc⟩
      · exfalso
        apply hxr
        rw [hx]
        show (freshNode g t).index ∈ g.root_nodes ++ [g.all_nodes.length]
        rw [show (freshNode g t).index = g.all_nodes.length from rfl]
        simp
  · intro x hx
    have hlen : (insRoot g t).all_nodes.length = g.all_nodes.length + 1 := by
      unfold insRoot
      simp
    rw [hlen]
    rcases hmem.mp hx with hx | hx
    · have := hCt x hx
      omega
    · rw [hx]
      show g.all_nodes.length < g.all_nodes.length + 1
      omega

/-! ## The amended invariant theorem of claim C2 -/

lemma applyOp_preserves {g : IndexGraph} (hV : Valid g) (hP : PathInv g) (op : Op) :
    Valid (applyOp g op) ∧ PathInv (applyOp g op) := by
  cases op with
  | ins t =>
    rcases applyOp_ins_eq g hV t with ⟨tipN, hl, htip, heq⟩ | ⟨hl, heq⟩
    · rw [heq]
      exact ⟨valid_insTip hV (List.mem_map.mpr ⟨tipN, htip, rfl⟩) t, pathInv_insTip hP _ t⟩
    · rw [heq]
      exact ⟨valid_insRoot hV t, pathInv_insRoot hP t⟩
  | co i =>
    rcases hlk : lookup g i with _ | n
    · have heq : applyOp g (.co i) = g := by
        simp only [applyOp, hlk]
      rw [heq]
      exact ⟨hV, hP⟩
    · have hn : n ∈ g.all_nodes := (lookup_mem hlk).1
      have hwlt : n.index < g.all_nodes.length := hV.2 n hn
      rcases walk_isSome (wf_mono hV.1) (wf_nonRootParent hV.1) hn hwlt with ⟨w, hw⟩
      have heq : applyOp g (.co i) = markOnly g (w.map (fun m => m.index)) := by
        simp only [applyOp, hlk, checkoutPath, hw, Option.map_some', Option.getD_some]
      rw [heq]
      exact ⟨valid_markOnly hV _, Or.inr ⟨_, checkout_chain hV hn hw⟩⟩

lemma applyOps_preserves {g : IndexGraph} (hV : Valid g) (hP : PathInv g) (ops : List Op) :
    Valid (applyOps g ops) ∧ PathInv (applyOps g ops) := by
  induction ops generalizing g with
  | nil => exact ⟨hV, hP⟩
  | cons op rest ih =>
    have h := applyOp_preserves hV hP op
    have he : applyOps g (op :: rest) = applyOps (applyOp g op) rest := by
      unfold applyOps
      rw [List.foldl_cons]
    rw [he]
    exact ih h.1 h.2

/-- Claim C2 as amended: starting from any valid forest whose id space has no
gaps (every id below the node count, as in any forest built by inserts alone,
`Valid` = the spec structural invariants plus `Contiguous`), every finite
sequence of insert and checkout operations leaves the checked-out set empty or
equal to exactly one simple path that starts at a root and descends through
parent-child edges. -/
theorem c2_amended_invariant (g : IndexGraph) (ops : List Op)
    (hV : Valid g) (hP : PathInv g) : PathInv (applyOps g ops) :=
  (applyOps_preserves hV hP ops).2

def c2w : IndexGraph :=
  { all_nodes := [ { index := 0, text := "a", child_indices := [], checked_out := true } ]
    root_nodes := [0] }

/-- Witness for the amended claim C2 at a concrete input. -/
theorem c2_amended_invariant_witness :
    Valid c2w ∧ PathInv c2w ∧ PathInv (applyOps c2w [Op.ins "b", Op.co 0]) := by
  have hV : Valid c2w := by
    unfold Valid WellFormed Contiguous
    decide
  have hP : PathInv c2w :=
    Or.inr ⟨[0], ⟨0, [], rfl, by decide⟩, by decide, by decide, by decide, by decide⟩
  exact ⟨hV, hP, c2_amended_invariant c2w [Op.ins "b", Op.co 0] hV hP⟩

/-! ## The descent along the freshly checked-out path -/

lemma getChildren_markOnly (g : IndexGraph) (ids : List Nat) (p : Node) :
    getChildren (markOnly g ids) p
      = (getChildren g p).map (fun m => setChecked (ids.contains m.index) m) := by
  unfold getChildren
  rw [List.map_filterMap]
  exact List.filterMap_congr (fun c _ => lookup_markOnly g ids c)

lemma markOnly_length (g : IndexGraph) (ids : List Nat) :
    (markOnly g ids).all_nodes.length = g.all_nodes.length := by
  unfold markOnly
  simp

lemma walk_adj_get {g : IndexGraph} {fuel : Nat} {n : Node} {w : List Node}
    (hw : walkToRoot g fuel n = some w) (hn : n ∈ g.all_nodes) :
    ∀ i (hi1 : i + 1 < w.length),
      (w.get ⟨i, by omega⟩).index ∈ (w.get ⟨i + 1, hi1⟩).child_indices := by
  intro i hi1
  have hadj := walk_adj hw hn
  rw [List.chain'_iff_get] at hadj
  have h2 : i < w.length - 1 := by omega
  exact (hadj i h2).1

lemma walk_lt_get {w : List Node} (hpw : List.Pairwise (fun a b => b.index < a.index) w) :
    ∀ i j (hi : i < w.length) (hj : j < w.length), i < j →
      (w.get ⟨j, hj⟩).index < (w.get ⟨i, hi⟩).index := by
  intro i j hi hj hij
  have h := List.pairwise_iff_getElem.mp hpw i j hi hj hij
  rw [List.get_eq_getElem, List.get_eq_getElem]
  exact h

lemma walk_pos_inj {w : List Node} (hpw : List.Pairwise (fun a b => b.index < a.index) w)
    {i j : Nat} (hi : i < w.length) (hj : j < w.length)
    (he : (w.get ⟨i, hi⟩).index = (w.get ⟨j, hj⟩).index) : i = j := by
  rcases lt_trichotomy i j with h | h | h
  · have := walk_lt_get hpw i j hi hj h
    omega
  · exact h
  · have := walk_lt_get hpw j i hj hi h
    omega

lemma idx_mem_walk {w : List Node} {c : Nat} (h : c ∈ w.map (fun m => m.index)) :
    ∃ k, ∃ hk : k < w.length, (w.get ⟨k, hk⟩).index = c := by
  rcases List.mem_map.mp h with ⟨z, hz, hze⟩
  rcases List.mem_iff_getElem.mp hz with ⟨k, hk, hke⟩
  refine ⟨k, hk, ?_⟩
  rw [List.get_eq_getElem, hke, hze]

lemma walk_get_mem {g : IndexGraph} {fuel : Nat} {n : Node} {w : List Node}
    (hw : walkToRoot g fuel n = some w) (hn : n ∈ g.all_nodes)
    {k : Nat} (hk : k < w.length) : w.get ⟨k, hk⟩ ∈ g.all_nodes := by
  refine walk_mem hw hn _ ?_
  rw [List.get_eq_getElem]
  exact List.getElem_mem hk

lemma walk_get_contains {w : List Node} {k : Nat} (hk : k < w.length) :
    (w.map (fun m => m.index)).contains (w.get ⟨k, hk⟩).index = true := by
  refine (contains_iff_mem _ _).mpr ?_
  refine List.mem_map.mpr ⟨w.get ⟨k, hk⟩, ?_, rfl⟩
  rw [List.get_eq_getElem]
  exact List.getElem_mem hk

lemma walk_last_get {g : IndexGraph} {fuel : Nat} {n : Node} {w : List Node}
    (hw : walkToRoot g fuel n = some w) (hlen : w.length - 1 < w.length) :
    (w.get ⟨w.length - 1, hlen⟩).index ∈ g.root_nodes := by
  rcases walk_last_root hw with ⟨r, hrl, hrr⟩
  rw [List.getLast?_eq_getElem?, List.getElem?_eq_getElem hlen] at hrl
  have : w[w.length - 1] = r := by
    injection hrl
  rw [List.get_eq_getElem, this]
  exact hrr

/-- The unique checked-out child below position `j+1` of the walk is the walk
element at position `j`. -/
lemma marked_child_unique {g : IndexGraph} (hV : Valid g) {n : Node} (hn : n ∈ g.all_nodes)
    {w : List Node} {fuel0 : Nat} (hw : walkToRoot g fuel0 n = some w)
    {j : Nat} (hj : j + 1 < w.length) :
    (getChildren (markOnly g (w.map (fun m => m.index))) (w.get ⟨j + 1, hj⟩)).find?
        (fun m => m.checked_out) = some (setChecked true (w.get ⟨j, by omega⟩)) := by
  rcases hV with ⟨hWF, hCt⟩
  have hjlt : j < w.length := by omega
  have hpw := walk_pairwise (wf_mono hWF) hw hn
  have hcw := walk_get_contains hjlt
  rw [getChildren_markOnly]
  have hFx : setChecked ((w.map (fun m => m.index)).contains (w.get ⟨j, hjlt⟩).index)
      (w.get ⟨j, hjlt⟩) = setChecked true (w.get ⟨j, hjlt⟩) := by rw [hcw]
  refine find?_unique ?_ ?_ ?_
  · refine List.mem_map.mpr ⟨w.get ⟨j, hjlt⟩, ?_, hFx⟩
    refine mem_getChildren (wf_nodupIdx hWF) (walk_get_mem hw hn hjlt) ?_
    exact walk_adj_get hw hn j hj
  · rfl
  · intro y hy hchk
    rcases List.mem_map.mp hy with ⟨c, hc, hcy⟩
    rcases getChildren_mem hc with ⟨hcmem, hcidx⟩
    have hchk2 : (w.map (fun m => m.index)).contains c.index = true := by
      rw [← hcy] at hchk
      exact hchk
    rcases idx_mem_walk ((contains_iff_mem _ _).mp hchk2) with ⟨k, hk, hke⟩
    have hkcases : k = w.length - 1 ∨ k + 1 < w.length := by omega
    rcases hkcases with hkl | hkl
    · exfalso
      subst hkl
      have hroot : (w.get ⟨w.length - 1, hk⟩).index ∈ g.root_nodes :=
        walk_last_get hw hk
      rw [hke] at hroot
      exact wf_rootsNoParent hWF _ (walk_get_mem hw hn hj) c.index hcidx hroot
    · have hadj2 := walk_adj_get hw hn k hkl
      have hpeq : w.get ⟨k + 1, hkl⟩ = w.get ⟨j + 1, hj⟩ := by
        refine wf_parentUnique hWF _ (walk_get_mem hw hn hkl) _ (walk_get_mem hw hn hj)
          (w.get ⟨k, hk⟩).index hadj2 ?_
        rw [hke]
        exact hcidx
      have hkj : k + 1 = j + 1 :=
        walk_pos_inj hpw hkl hj (by rw [hpeq])
      have hkj2 : k = j := by omega
      have hfin : (⟨k, hk⟩ : Fin w.length) = ⟨j, hjlt⟩ := Fin.ext hkj2
      have hcj : c = w.get ⟨j, hjlt⟩ := by
        refine idx_inj (wf_nodupIdx hWF) hcmem (walk_get_mem hw hn hjlt) ?_
        rw [← hke, hfin]
      rw [← hcy, hcj]
      rw [show ((w.map (fun m => m.index)).contains (w.get ⟨j, hjlt⟩).index) = true from hcw]

lemma descendChecked_step {g : IndexGraph} {fuel : Nat} {nodes acc : List Node} {m : Node}
    (h : nodes.find? (fun x => x.checked_out) = some m) :
    descendChecked g (fuel + 1) nodes acc
      = descendChecked g fuel (getChildren g m) (acc ++ [m]) := by
  rw [descendChecked, h]

lemma descendChecked_stop {g : IndexGraph} {fuel : Nat} {nodes acc : List Node}
    (h : nodes.find? (fun x => x.checked_out) = none) :
    descendChecked g (fuel + 1) nodes acc = acc := by
  rw [descendChecked, h]

/-- Below the walk bottom (the checkout target) no child is checked out. -/
lemma marked_bottom_none {g : IndexGraph} (hV : Valid g) {n : Node} (hn : n ∈ g.all_nodes)
    {w : List Node} {fuel0 : Nat} (hw : walkToRoot g fuel0 n = some w)
    (h0 : 0 < w.length) :
    (getChildren (markOnly g (w.map (fun m => m.index))) (w.get ⟨0, h0⟩)).find?
        (fun m => m.checked_out) = none := by
  rcases hV with ⟨hWF, hCt⟩
  have hpw := walk_pairwise (wf_mono hWF) hw hn
  rw [List.find?_eq_none]
  intro y hy
  rw [getChildren_markOnly] at hy
  rcases List.mem_map.mp hy with ⟨c, hc, hcy⟩
  rcases getChildren_mem hc with ⟨hcmem, hcidx⟩
  intro hchk
  have hchk2 : (w.map (fun m => m.index)).contains c.index = true := by
    rw [← hcy] at hchk
    exact hchk
  rcases idx_mem_walk ((contains_iff_mem _ _).mp hchk2) with ⟨k, hk, hke⟩
  have hmono := wf_mono hWF _ (walk_get_mem hw hn h0) c.index hcidx
  have hle : (w.get ⟨k, hk⟩).index ≤ (w.get ⟨0, h0⟩).index := by
    rcases Nat.eq_zero_or_pos k with hk0 | hk0
    · have hfin : (⟨k, hk⟩ : Fin w.length) = ⟨0, h0⟩ := Fin.ext hk0
      rw [hfin]
    · exact le_of_lt (walk_lt_get hpw 0 k h0 hk hk0)
  rw [hke] at hle
  omega

/-- Descending from walk position `j` in the marked graph collects exactly the
walk prefix below `j`, reversed and marked. -/
lemma descend_marked {g : IndexGraph} (hV : Valid g) {n : Node} (hn : n ∈ g.all_nodes)
    {w : List Node} {fuel0 : Nat} (hw : walkToRoot g fuel0 n = some w) :
    ∀ (j : Nat) (hj : j < w.length) (acc : List Node) (fuel : Nat), j + 1 ≤ fuel →
      descendChecked (markOnly g (w.map (fun m => m.index))) fuel
          (getChildren (markOnly g (w.map (fun m => m.index))) (w.get ⟨j, hj⟩)) acc
        = acc ++ ((w.take j).reverse.map (fun m => setChecked true m)) := by
  intro j
  induction j with
  | zero =>
    intro hj acc fuel hfuel
    cases fuel with
    | zero => omega
    | succ f =>
      rw [descendChecked_stop (marked_bottom_none hV hn hw hj)]
      simp
  | succ j ih =>
    intro hj acc fuel hfuel
    cases fuel with
    | zero => omega
    | succ f =>
      have hjlt : j < w.length := by omega
      rw [descendChecked_step (marked_child_unique hV hn hw hj)]
      have hch : getChildren (markOnly g (w.map fun m => m.index))
          (setChecked true (w.get ⟨j, hjlt⟩))
          = getChildren (markOnly g (w.map fun m => m.index)) (w.get ⟨j, hjlt⟩) := rfl
      rw [hch, ih hjlt (acc ++ [setChecked true (w.get ⟨j, hjlt⟩)]) f (by omega)]
      rw [List.take_succ, List.getElem?_eq_getElem hjlt]
      rw [show (some w[j]).toList = [w[j]] from rfl]
      rw [List.reverse_concat, List.map_cons]
      rw [List.append_assoc]
      rfl

lemma walk_len_le {g : IndexGraph} (hWF : WellFormed g) {fuel : Nat} {n : Node} {w : List Node}
    (hw : walkToRoot g fuel n = some w) (hn : n ∈ g.all_nodes) :
    w.length ≤ g.all_nodes.length := by
  have hpw := walk_pairwise (wf_mono hWF) hw hn
  have hnd : (w.map (fun m => m.index)).Nodup := by
    rw [List.Nodup, List.pairwise_map]
    exact hpw.imp (fun h => by omega)
  have hsub : (w.map (fun m => m.index)) ⊆ idxList g := by
    intro a ha
    rcases List.mem_map.mp ha with ⟨z, hz, hze⟩
    exact List.mem_map.mpr ⟨z, walk_mem hw hn z hz, hze⟩
  have hle := (List.subperm_of_subset hnd hsub).length_le
  rw [List.length_map] at hle
  unfold idxList at hle
  rw [List.length_map] at hle
  exact hle

lemma pathNodes_eq_of_find {g : IndexGraph} {r : Node}
    (h : (rootNodes g).find? (fun m => m.checked_out) = some r) :
    pathNodes g = descendChecked g g.all_nodes.length (getChildren g r) [r] := by
  rw [pathNodes, h]

lemma pathNodes_eq_of_none {g : IndexGraph}
    (h : (rootNodes g).find? (fun m => m.checked_out) = none) :
    pathNodes g = [] := by
  rw [pathNodes, h]

/-- The first checked-out root of the marked graph is the walk top. -/
lemma marked_root_find {g : IndexGraph} (hV : Valid g) {n : Node} (hn : n ∈ g.all_nodes)
    {w : List Node} {fuel0 : Nat} (hw : walkToRoot g fuel0 n = some w)
    (hlen : w.length - 1 < w.length) :
    (rootNodes (markOnly g (w.map (fun m => m.index)))).find? (fun m => m.checked_out)
      = some (setChecked true (w.get ⟨w.length - 1, hlen⟩)) := by
  rcases hV with ⟨hWF, hCt⟩
  have hpw := walk_pairwise (wf_mono hWF) hw hn
  have hrc := walk_get_contains hlen
  have hrmem : w.get ⟨w.length - 1, hlen⟩ ∈ g.all_nodes := walk_get_mem hw hn hlen
  refine find?_unique ?_ ?_ ?_
  · unfold rootNodes
    refine List.mem_filterMap.mpr ⟨(w.get ⟨w.length - 1, hlen⟩).index, ?_, ?_⟩
    · rw [markOnly_root_nodes]
      exact walk_last_get hw hlen
    · rw [lookup_markOnly, lookup_eq_some_of_mem (wf_nodupIdx hWF) hrmem]
      rw [Option.map_some', hrc]
  · rfl
  · intro y hy hchk
    unfold rootNodes at hy
    rcases List.mem_filterMap.mp hy with ⟨rid, hrid, hlky⟩
    rw [markOnly_root_nodes] at hrid
    rw [lookup_markOnly] at hlky
    rcases hgm : lookup g rid with _ | m
    · rw [hgm] at hlky
      cases hlky
    · rw [hgm] at hlky
      rw [Option.map_some'] at hlky
      injection hlky with hlky
      rcases lookup_mem hgm with ⟨hmm, hmi⟩
      have hchk2 : (w.map (fun m => m.index)).contains m.index = true := by
        rw [← hlky] at hchk
        exact hchk
      rcases idx_mem_walk ((contains_iff_mem _ _).mp hchk2) with ⟨k, hk, hke⟩
      have hkcases : k = w.length - 1 ∨ k < w.length - 1 := by omega
      rcases hkcases with hkl | hkl
      · have hfin : (⟨k, hk⟩ : Fin w.length) = ⟨w.length - 1, hlen⟩ := Fin.ext hkl
        rw [hfin] at hke
        have hme : m = w.get ⟨w.length - 1, hlen⟩ :=
          idx_inj (wf_nodupIdx hWF) hmm hrmem (by rw [hke])
        rw [← hlky, hme, hrc]
      · exfalso
        have hnr := walk_nonroot hw (w.get ⟨k, hk⟩) ?_
        · rw [hke, hmi] at hnr
          exact hnr hrid
        · have hdl : k < w.dropLast.length := by
            rw [List.length_dropLast]
            omega
          refine List.mem_iff_getElem.mpr ⟨k, hdl, ?_⟩
          rw [List.getElem_dropLast, List.get_eq_getElem]

/-- The workhorse: a successful `checkout_path` marks exactly the walk, the new
active path is the reversed walk, and the tip is the checkout target. -/
lemma checkoutPath_spec {g : IndexGraph} (hV : Valid g) {n : Node} (hn : n ∈ g.all_nodes) :
    ∃ w, walkToRoot g g.all_nodes.length n = some w ∧
      checkoutPath g n = some (markOnly g (w.map (fun m => m.index))) ∧
      pathNodes (markOnly g (w.map (fun m => m.index)))
        = w.reverse.map (fun m => setChecked true m) ∧
      tipIdx (markOnly g (w.map (fun m => m.index))) = some n.index := by
  rcases walk_isSome (wf_mono hV.1) (wf_nonRootParent hV.1) hn (hV.2 n hn) with ⟨w, hw⟩
  have hw0 : w ≠ [] := by
    rcases walk_shape hw with ⟨t, ht⟩
    rw [ht]
    simp
  have hlen : w.length - 1 < w.length := by
    have : 0 < w.length := List.length_pos.mpr hw0
    omega
  have hpath : pathNodes (markOnly g (w.map (fun m => m.index)))
      = w.reverse.map (fun m => setChecked true m) := by
    rw [pathNodes_eq_of_find (marked_root_find hV hn hw hlen)]
    rw [show getChildren (markOnly g (w.map (fun m => m.index)))
        (setChecked true (w.get ⟨w.length - 1, hlen⟩))
        = getChildren (markOnly g (w.map (fun m => m.index)))
          (w.get ⟨w.length - 1, hlen⟩) from rfl]
    have hfuel : (w.length - 1) + 1 ≤ g.all_nodes.length := by
      have := walk_len_le hV.1 hw hn
      omega
    rw [markOnly_length]
    rw [descend_marked hV hn hw (w.length - 1) hlen _ _ hfuel]
    rw [← List.dropLast_eq_take]
    conv_rhs => rw [← List.dropLast_append_getLast hw0]
    rw [List.reverse_concat, List.map_cons]
    rw [List.getLast_eq_getElem]
    rfl
  refine ⟨w, hw, ?_, hpath, ?_⟩
  · unfold checkoutPath
    rw [hw]
    rfl
  · unfold tipIdx pathIdxs
    rw [hpath, List.map_map]
    rw [show (w.reverse.map ((fun m => m.index) ∘ (fun m => setChecked true m)))
        = w.reverse.map (fun m => m.index) from rfl]
    rw [List.getLast?_map, List.getLast?_reverse]
    rcases walk_shape hw with ⟨t, ht⟩
    rw [ht]
    rfl

/-! ## Claim C6: sibling stepping wraps -/

lemma getSiblings_mem {g : IndexGraph} {t : Node} : ∀ x ∈ getSiblings g t, x ∈ g.all_nodes := by
  intro x hx
  unfold getSiblings at hx
  rcases hp : getParent g t.index with _ | p
  · rw [hp] at hx
    rcases List.mem_filterMap.mp hx with ⟨i, _, hl⟩
    exact (lookup_mem hl).1
  · rw [hp] at hx
    exact (getChildren_mem hx).1

lemma sibTarget_spec {l : List Nat} (hnd : l.Nodup) {i : Nat} (hi : i < l.length) :
    ∃ hj : (i + 1) % l.length < l.length,
      sibTarget l (l.get ⟨i, hi⟩) = some (l.get ⟨(i + 1) % l.length, hj⟩) := by
  have hlen : 0 < l.length := by omega
  have hmod : (i + 1) % l.length < l.length := Nat.mod_lt _ hlen
  refine ⟨hmod, ?_⟩
  unfold sibTarget
  have hmem : l.get ⟨i, hi⟩ ∈ l := by
    rw [List.get_eq_getElem]
    exact List.getElem_mem hi
  rw [if_pos hmem]
  have hidx : l.indexOf (l.get ⟨i, hi⟩) = i := by
    rw [List.get_eq_getElem]
    exact List.indexOf_getElem hnd i hi
  rw [hidx]
  by_cases hcase : i = l.length - 1
  · rw [if_pos hcase]
    have hsum : i + 1 = l.length := by omega
    have h0 : (i + 1) % l.length = 0 := by
      rw [hsum, Nat.mod_self]
    have h0lt : 0 < l.length := hlen
    have hfin : (⟨(i + 1) % l.length, hmod⟩ : Fin l.length) = ⟨0, h0lt⟩ := Fin.ext h0
    rw [hfin]
    rw [List.head?_eq_getElem?, List.getElem?_eq_getElem h0lt]
    rfl
  · rw [if_neg hcase]
    have hlt : i + 1 < l.length := by omega
    have h1 : (i + 1) % l.length = i + 1 := Nat.mod_eq_of_lt hlt
    have hfin : (⟨(i + 1) % l.length, hmod⟩ : Fin l.length) = ⟨i + 1, hlt⟩ := Fin.ext h1
    rw [hfin]
    rw [List.getElem?_eq_getElem hlt]
    rfl

lemma getChildren_idx {g : IndexGraph} (hWF : WellFormed g) {p : Node} (hp : p ∈ g.all_nodes) :
    (getChildren g p).map (fun m => m.index) = p.child_indices := by
  unfold getChildren
  rw [List.map_filterMap]
  have hcg : ∀ c ∈ p.child_indices,
      ((lookup g c).map (fun m => m.index)) = some c := by
    intro c hc
    rcases List.mem_map.mp (wf_childMem hWF p hp c hc) with ⟨q, hq, hqe⟩
    have hl : lookup g c = some q := by
      rw [← hqe]
      exact lookup_eq_some_of_mem (wf_nodupIdx hWF) hq
    rw [hl, Option.map_some', hqe]
  rw [List.filterMap_congr hcg]
  exact List.filterMap_some _

lemma rootNodes_idx {g : IndexGraph} (hWF : WellFormed g) :
    (rootNodes g).map (fun m => m.index) = g.root_nodes := by
  unfold rootNodes
  rw [List.map_filterMap]
  have hcg : ∀ c ∈ g.root_nodes,
      ((lookup g c).map (fun m => m.index)) = some c := by
    intro c hc
    rcases List.mem_map.mp (wf_rootsMem hWF c hc) with ⟨q, hq, hqe⟩
    have hl : lookup g c = some q := by
      rw [← hqe]
      exact lookup_eq_some_of_mem (wf_nodupIdx hWF) hq
    rw [hl, Option.map_some', hqe]
  rw [List.filterMap_congr hcg]
  exact List.filterMap_some _

lemma getSiblings_idx_nodup {g : IndexGraph} (hWF : WellFormed g) (t : Node) :
    ((getSiblings g t).map (fun m => m.index)).Nodup := by
  unfold getSiblings
  rcases hp : getParent g t.index with _ | p
  · rw [rootNodes_idx hWF]
    exact wf_rootsNodup hWF
  · rcases getParent_mem hp with ⟨hpm, _⟩
    rw [getChildren_idx hWF hpm]
    exact wf_childNodup hWF p hpm

lemma stepSibling_tip {g : IndexGraph} (hV : Valid g) {siblings : List Node}
    (hsmem : ∀ x ∈ siblings, x ∈ g.all_nodes) {d : String} {tipI tg : Nat}
    (htg : sibTarget (sibOrder d siblings) tipI = some tg)
    (htgmem : tg ∈ siblings.map (fun m => m.index)) :
    ∃ g2, stepSibling g d siblings tipI = some g2 ∧ tipIdx g2 = some tg := by
  rcases List.mem_map.mp htgmem with ⟨m0, hm0, hm0e⟩
  have hfs : (siblings.find? (fun m => m.index == tg)).isSome := by
    rw [List.find?_isSome]
    exact ⟨m0, hm0, by simp [hm0e]⟩
  rcases Option.isSome_iff_exists.mp hfs with ⟨m2, hm2⟩
  have hm2mem : m2 ∈ g.all_nodes := hsmem m2 (List.mem_of_find?_eq_some hm2)
  have hm2idx : m2.index = tg := by
    have hb := List.find?_some hm2
    simpa using hb
  rcases checkoutPath_spec hV hm2mem with ⟨w, hwk, hcp, hpth, htipx⟩
  refine ⟨markOnly g (w.map (fun m => m.index)), ?_, by rw [htipx, hm2idx]⟩
  unfold stepSibling
  rw [htg]
  show (match siblings.find? (fun m => m.index == tg) with
    | none => none
    | some m => checkoutPath g m) = some (markOnly g (w.map (fun m => m.index)))
  rw [hm2]
  exact hcp

lemma get_reverse_idx {α : Type} (l : List α) {j : Nat} (hj : j < l.reverse.length)
    {k : Nat} (hk : k < l.length) (hjk : j + k + 1 = l.length) :
    l.reverse.get ⟨j, hj⟩ = l.get ⟨k, hk⟩ := by
  have hj2 : l.length - 1 - k < l.reverse.length := by
    rw [List.length_reverse]
    omega
  have hval : j = l.length - 1 - k := by omega
  have hfin : (⟨j, hj⟩ : Fin l.reverse.length) = ⟨l.length - 1 - k, hj2⟩ :=
    Fin.ext hval
  rw [hfin]
  exact List.get_reverse l k hj2 hk

/-- Claim C6: among the siblings of the active tip (itself included), sorted
ascending by id as `s`, stepping to the larger sibling moves the tip from
position `i` to position `(i+1) mod |s|` and stepping to the smaller sibling to
position `(i+|s|-1) mod |s|`: both wrap at the ends, and a sole sibling
(`|s| = 1`) leaves the tip in place.  The directions `larger_sibling` and
`smaller_sibling` are the canonical names of `next-sibling`/`previous-sibling`
in the source. -/
theorem c6_sibling_step_wrap (g : IndexGraph) (hV : Valid g) (t : Node)
    (htip : (pathNodes g).getLast? = some t) (s : List Nat)
    (hs : s = ((getSiblings g t).map (fun m => m.index)).insertionSort (fun a b => a ≤ b))
    (i : Nat) (hi : i < s.length) (hit : s.get ⟨i, hi⟩ = t.index) :
    (∃ g2, ∃ hj : (i + 1) % s.length < s.length,
      stepOp g "larger_sibling" = some g2 ∧
      tipIdx g2 = some (s.get ⟨(i + 1) % s.length, hj⟩)) ∧
    (∃ g2, ∃ hj : (i + s.length - 1) % s.length < s.length,
      stepOp g "smaller_sibling" = some g2 ∧
      tipIdx g2 = some (s.get ⟨(i + s.length - 1) % s.length, hj⟩)) := by
  have hsibmem : ∀ x ∈ getSiblings g t, x ∈ g.all_nodes := getSiblings_mem
  have hperm : s.Perm ((getSiblings g t).map (fun m => m.index)) := by
    rw [hs]
    exact List.perm_insertionSort _ _
  have hnd0 : ((getSiblings g t).map (fun m => m.index)).Nodup :=
    getSiblings_idx_nodup hV.1 t
  have hnds : s.Nodup := (hperm.symm).nodup hnd0
  have hlen0 : 0 < s.length := by omega
  constructor
  · have hord : sibOrder "larger_sibling" (getSiblings g t) = s := by
      unfold sibOrder
      rw [if_neg (by decide : ¬ (("larger_sibling" : String) = "smaller_sibling"))]
      exact hs.symm
    rcases sibTarget_spec hnds hi with ⟨hj, hsp⟩
    rw [hit] at hsp
    have htgmem : s.get ⟨(i + 1) % s.length, hj⟩ ∈ (getSiblings g t).map (fun m => m.index) := by
      refine hperm.mem_iff.mp ?_
      rw [List.get_eq_getElem]
      exact List.getElem_mem hj
    rcases stepSibling_tip hV hsibmem (by rw [hord]; exact hsp) htgmem with ⟨g2, hstep, htp⟩
    refine ⟨g2, hj, ?_, htp⟩
    unfold stepOp
    rw [if_neg (by decide : ¬ (canonDir "larger_sibling" = "up")),
      if_neg (by decide : ¬ (canonDir "larger_sibling" = "down")),
      if_pos (by decide : canonDir "larger_sibling" = "smaller_sibling" ∨
        canonDir "larger_sibling" = "larger_sibling"),
      htip]
    show stepSibling g (canonDir "larger_sibling") (getSiblings g t) t.index = some g2
    rw [show canonDir "larger_sibling" = "larger_sibling" from by decide]
    exact hstep
  · have hord : sibOrder "smaller_sibling" (getSiblings g t) = s.reverse := by
      unfold sibOrder
      rw [if_pos rfl, hs]
    have hril : s.length - 1 - i < s.reverse.length := by
      rw [List.length_reverse]
      omega
    have hrev_get : s.reverse.get ⟨s.length - 1 - i, hril⟩ = t.index := by
      rw [List.get_reverse s i hril hi]
      exact hit
    have hndr : s.reverse.Nodup := List.nodup_reverse.mpr hnds
    rcases sibTarget_spec hndr hril with ⟨hj0, hsp⟩
    rw [hrev_get] at hsp
    have hmodlt : (i + s.length - 1) % s.length < s.length := Nat.mod_lt _ hlen0
    have harith : ((s.length - 1 - i + 1) % s.reverse.length)
        + ((i + s.length - 1) % s.length) + 1 = s.length := by
      rw [List.length_reverse]
      rcases Nat.eq_zero_or_pos i with rfl | hpos
      · have e1 : (s.length - 1 - 0 + 1) % s.length = 0 := by
          have h : s.length - 1 - 0 + 1 = s.length := by omega
          rw [h, Nat.mod_self]
        have e2 : (0 + s.length - 1) % s.length = s.length - 1 := by
          have h : 0 + s.length - 1 = s.length - 1 := by omega
          rw [h]
          exact Nat.mod_eq_of_lt (by omega)
        rw [e1, e2]
        omega
      · have e1 : (s.length - 1 - i + 1) % s.length = s.length - i := by
          have h : s.length - 1 - i + 1 = s.length - i := by omega
          rw [h]
          exact Nat.mod_eq_of_lt (by omega)
        have e2 : (i + s.length - 1) % s.length = i - 1 := by
          have h : i + s.length - 1 = (i - 1) + s.length := by omega
          rw [h, Nat.add_mod_right]
          exact Nat.mod_eq_of_lt (by omega)
        rw [e1, e2]
        omega
    have hge : s.reverse.get ⟨(s.length - 1 - i + 1) % s.reverse.length, hj0⟩
        = s.get ⟨(i + s.length - 1) % s.length, hmodlt⟩ :=
      get_reverse_idx s hj0 hmodlt harith
    rw [hge] at hsp
    have htgmem : s.get ⟨(i + s.length - 1) % s.length, hmodlt⟩
        ∈ (getSiblings g t).map (fun m => m.index) := by
      refine hperm.mem_iff.mp ?_
      rw [List.get_eq_getElem]
      exact List.getElem_mem hmodlt
    rcases stepSibling_tip hV hsibmem (by rw [hord]; exact hsp) htgmem with ⟨g2, hstep, htp⟩
    refine ⟨g2, hmodlt, ?_, htp⟩
    unfold stepOp
    rw [if_neg (by decide : ¬ (canonDir "smaller_sibling" = "up")),
      if_neg (by decide : ¬ (canonDir "smaller_sibling" = "down")),
      if_pos (by decide : canonDir "smaller_sibling" = "smaller_sibling" ∨
        canonDir "smaller_sibling" = "larger_sibling"),
      htip]
    show stepSibling g (canonDir "smaller_sibling") (getSiblings g t) t.index = some g2
    rw [show canonDir "smaller_sibling" = "smaller_sibling" from by decide]
    exact hstep

def c6g : IndexGraph :=
  { all_nodes :=
      [ { index := 0, text := "r", child_indices := [1], checked_out := true }
      , { index := 1, text := "a", child_indices := [2, 5, 9], checked_out := true }
      , { index := 2, text := "b", child_indices := [3, 4], checked_out := false }
      , { index := 3, text := "c", child_indices := [], checked_out := false }
      , { index := 4, text := "d", child_indices := [], checked_out := false }
      , { index := 5, text := "e", child_indices := [6, 7, 8], checked_out := true }
      , { index := 6, text := "f", child_indices := [], checked_out := false }
      , { index := 7, text := "g", child_indices := [], checked_out := false }
      , { index := 8, text := "h", child_indices := [], checked_out := false }
      , { index := 9, text := "i", child_indices := [], checked_out := false } ]
    root_nodes := [0] }

def c6t : Node :=
  { index := 5, text := "e", child_indices := [6, 7, 8], checked_out := true }

/-- Witness for claim C6 at the concrete example of the claim: siblings
`[2, 5, 9]` with active tip `5` (position 1); stepping to the larger sibling
reaches position `2 % 3 = 2` (id 9), stepping to the smaller reaches position
`3 % 3 = 0` (id 2). -/
theorem c6_sibling_step_wrap_witness :
    Valid c6g ∧ (pathNodes c6g).getLast? = some c6t ∧
    ((∃ g2, ∃ hj : (1 + 1) % ([2, 5, 9] : List Nat).length < ([2, 5, 9] : List Nat).length,
      stepOp c6g "larger_sibling" = some g2 ∧
      tipIdx g2 = some (([2, 5, 9] : List Nat).get
        ⟨(1 + 1) % ([2, 5, 9] : List Nat).length, hj⟩)) ∧
    (∃ g2, ∃ hj : (1 + ([2, 5, 9] : List Nat).length - 1) % ([2, 5, 9] : List Nat).length
        < ([2, 5, 9] : List Nat).length,
      stepOp c6g "smaller_sibling" = some g2 ∧
      tipIdx g2 = some (([2, 5, 9] : List Nat).get
        ⟨(1 + ([2, 5, 9] : List Nat).length - 1) % ([2, 5, 9] : List Nat).length, hj⟩))) := by
  have hV : Valid c6g := by
    unfold Valid WellFormed Contiguous
    decide
  have htip : (pathNodes c6g).getLast? = some c6t := by decide
  have hs : ([2, 5, 9] : List Nat)
      = ((getSiblings c6g c6t).map (fun m => m.index)).insertionSort (fun a b => a ≤ b) := by
    decide
  exact ⟨hV, htip, c6_sibling_step_wrap c6g hV c6t htip [2, 5, 9] hs 1 (by decide) (by decide)⟩

/-! ## Claim C10: checkout by full text content -/

/-- Claim C10: when `checkout` receives a string identifier that is not a known
tag name and is not all digits, `get_node` scans `all_nodes` in insertion order
and returns the first node whose text equals the string exactly; the checkout
then lands on that node (the new tip carries its id), and when no node matches
the state is left unchanged.  Hence a node can be checked out by its full text
content. -/
theorem c10_checkout_by_text (st : LoomState) (hV : Valid st.graph) (s : String)
    (hnt : ∀ p ∈ st.tags, p.1 ≠ s) (hnd : isDigitStr s = false) :
    (∀ n : Node, st.graph.all_nodes.find? (fun m => m.text == s) = some n →
      ∃ st2, checkoutLoom st (Ident.str s) = some st2 ∧ st2.tags = st.tags ∧
        tipIdx st2.graph = some n.index) ∧
    (st.graph.all_nodes.find? (fun m => m.text == s) = none →
      checkoutLoom st (Ident.str s) = some st) := by
  have htag : st.tags.find? (fun p => p.1 == s) = none := by
    rw [List.find?_eq_none]
    intro p hp
    simp only [beq_iff_eq]
    exact hnt p hp
  have hgn : ∀ r : Option Node, st.graph.all_nodes.find? (fun m => m.text == s) = r →
      getNodeStr st.graph s = r := by
    intro r hr
    unfold getNodeStr
    rw [hnd]
    simp only [Bool.false_eq_true, if_neg (by simp : ¬ (False : Prop))]
    exact hr
  constructor
  · intro n hfind
    have hmem : n ∈ st.graph.all_nodes := List.mem_of_find?_eq_some hfind
    rcases checkoutPath_spec hV hmem with ⟨w, hwk, hcp, hpth, htipx⟩
    refine ⟨{ st with graph := markOnly st.graph (w.map (fun m => m.index)) }, ?_, rfl, htipx⟩
    unfold checkoutLoom
    show (match st.tags.find? (fun p => p.1 == s) with
      | some p =>
        match lookup st.graph p.2 with
        | none => none
        | some n => checkoutInto st n
      | none =>
        match getNodeStr st.graph s with
        | none => some st
        | some n => checkoutInto st n) = _
    rw [htag]
    show (match getNodeStr st.graph s with
      | none => some st
      | some n => checkoutInto st n) = _
    rw [hgn (some n) hfind]
    show checkoutInto st n = _
    unfold checkoutInto
    rw [hcp]
    rfl
  · intro hfind
    unfold checkoutLoom
    show (match st.tags.find? (fun p => p.1 == s) with
      | some p =>
        match lookup st.graph p.2 with
        | none => none
        | some n => checkoutInto st n
      | none =>
        match getNodeStr st.graph s with
        | none => some st
        | some n => checkoutInto st n) = some st
    rw [htag]
    show (match getNodeStr st.graph s with
      | none => some st
      | some n => checkoutInto st n) = some st
    rw [hgn none hfind]

def c10state : LoomState :=
  { graph :=
      { all_nodes :=
          [ { index := 0, text := "hello", child_indices := [1], checked_out := true }
          , { index := 1, text := "world", child_indices := [], checked_out := false } ]
        root_nodes := [0] }
    tags := [("t", 0)] }

def c10n : Node :=
  { index := 1, text := "world", child_indices := [], checked_out := false }

/-- Witness for claim C10: `"world"` is neither a tag nor digits; checkout by
the text `"world"` lands on node 1. -/
theorem c10_checkout_by_text_witness :
    Valid c10state.graph ∧ isDigitStr "world" = false ∧
    c10state.graph.all_nodes.find? (fun m => m.text == "world") = some c10n ∧
    ∃ st2, checkoutLoom c10state (Ident.str "world") = some st2 ∧
      st2.tags = c10state.tags ∧ tipIdx st2.graph = some c10n.index := by
  have hV : Valid c10state.graph := by
    unfold Valid WellFormed Contiguous
    decide
  refine ⟨hV, by decide, by decide, ?_⟩
  exact (c10_checkout_by_text c10state hV "world" (by decide) (by decide)).1 c10n (by decide)

/-! ## Claim C8: neighborhood truncation of render -/

/-- The unordered-pair key `tuple({u, v})` used by the distances table
(data_structs.py line 220): every lookup normalizes the pair, so the table is
modelled as a function applied to the ordered pair `(min, max)`. -/
def dkey (dist : Nat → Nat → Nat) (u v : Nat) : Nat :=
  dist (min u v) (max u v)

/-- One `min` step of `get_distance_from_path`; the accumulator starts at
`float("inf")`, modelled as `none`. -/
def minStep (dist : Nat → Nat → Nat) (q : Nat) (acc : Option Nat) (j : Nat) : Option Nat :=
  match acc with
  | none => some (dkey dist j q)
  | some d => some (min d (dkey dist j q))

/-- `IndexGraph.get_distance_from_path` (data_structs.py line 222). -/
def distFromPath (g : IndexGraph) (dist : Nat → Nat → Nat) (q : Nat) : Option Nat :=
  (pathIdxs g).foldl (minStep dist q) none

/-- `distance < bound` where `distance` may still be infinity. -/
def ltOpt : Option Nat → Nat → Bool
  | some d, b => decide (d < b)
  | none, _ => false

/-- `IndexGraph.close_node` (data_structs.py line 228): close when the distance
from the path is below `path_neighborhood`, else when the distance to the head
is below `head_neighborhood`; only the boolean half of the returned pair feeds
the truncation decision. -/
def closeNode (g : IndexGraph) (dist : Nat → Nat → Nat) (q hd : Nat) : Bool :=
  ltOpt (distFromPath g dist q) g.path_neighborhood
    || decide (dkey dist q hd < g.head_neighborhood)

/-- One entry of the rendered view: a node shown in full with its rendered
subtree, or the `"..."` placeholder, which carries no subtree because the
source `continue`s without recursing.  The placeholder records which child it
stands for; its display label in the source is just the ellipsis. -/
inductive View where
  | full (idx : Nat) (kids : List View)
  | dots (idx : Nat)

/-- `IndexGraph._get_repr_recursive` (data_structs.py line 294): each child is
rendered in full and recursed into when close, else collapsed. -/
def renderRec (g : IndexGraph) (dist : Nat → Nat → Nat) (hd : Nat) :
    Nat → Node → List View
  | 0, _ => []
  | fuel + 1, n =>
    (getChildren g n).map (fun c =>
      if closeNode g dist c.index hd then View.full c.index (renderRec g dist hd fuel c)
      else View.dots c.index)

/-- `IndexGraph._get_repr` (data_structs.py line 282) on the active tree: the
start node is rendered in full unconditionally and the head passed down is
`path_indices[-1]` (an IndexError when no path is active; the `getD` default is
unreachable under the hypotheses below). -/
def render (g : IndexGraph) (dist : Nat → Nat → Nat) (fuel : Nat) (start : Node) : View :=
  View.full start.index (renderRec g dist ((pathIdxs g).getLast?.getD 0) fuel start)

mutual

def entriesList : View → List (Nat × Bool)
  | View.full i kids => (i, true) :: entriesOf kids
  | View.dots i => [(i, false)]

def entriesOf : List View → List (Nat × Bool)
  | [] => []
  | v :: vs => entriesList v ++ entriesOf vs

end

lemma mem_entriesOf : ∀ {vs : List View} {p : Nat × Bool},
    p ∈ entriesOf vs ↔ ∃ v ∈ vs, p ∈ entriesList v := by
  intro vs
  induction vs with
  | nil => simp [entriesOf]
  | cons v t ih =>
    intro p
    rw [entriesOf, List.mem_append]
    constructor
    · intro h
      rcases h with h | h
      · exact ⟨v, by simp, h⟩
      · rcases ih.mp h with ⟨v2, hv2, hp⟩
        exact ⟨v2, by simp [hv2], hp⟩
    · rintro ⟨v2, hv2, hp⟩
      rcases List.mem_cons.mp hv2 with rfl | hv2
      · exact Or.inl hp
      · exact Or.inr (ih.mpr ⟨v2, hv2, hp⟩)

lemma foldl_minStep_le {dist : Nat → Nat → Nat} {q : Nat} :
    ∀ (l : List Nat) (d : Nat),
      ∃ m, l.foldl (minStep dist q) (some d) = some m ∧ m ≤ d := by
  intro l
  induction l with
  | nil => intro d; exact ⟨d, rfl, le_refl d⟩
  | cons a t ih =>
    intro d
    rw [List.foldl_cons]
    rcases ih (min d (dkey dist a q)) with ⟨m, hm, hle⟩
    refine ⟨m, hm, ?_⟩
    exact le_trans hle (min_le_left _ _)

lemma foldl_minStep_mem {dist : Nat → Nat → Nat} {q : Nat} :
    ∀ (l : List Nat) (acc : Option Nat) (i : Nat), i ∈ l →
      ∃ m, l.foldl (minStep dist q) acc = some m ∧ m ≤ dkey dist i q := by
  intro l
  induction l with
  | nil => intro acc i hi; cases hi
  | cons a t ih =>
    intro acc i hi
    rw [List.foldl_cons]
    rcases List.mem_cons.mp hi with rfl | hi
    · have hstep : ∃ v, minStep dist q acc i = some v ∧ v ≤ dkey dist i q := by
        cases acc with
        | none => exact ⟨dkey dist i q, rfl, le_refl _⟩
        | some d => exact ⟨min d (dkey dist i q), rfl, min_le_right _ _⟩
      rcases hstep with ⟨v, hv, hvle⟩
      rw [hv]
      rcases foldl_minStep_le t v with ⟨m, hm, hle⟩
      exact ⟨m, hm, le_trans hle hvle⟩
    · exact ih (minStep dist q acc a) i hi

lemma closeNode_of_mem_path {g : IndexGraph} {dist : Nat → Nat → Nat}
    (hd0 : ∀ x, dist x x = 0) (hpn : 0 < g.path_neighborhood)
    {q : Nat} (hq : q ∈ pathIdxs g) (hd : Nat) :
    closeNode g dist q hd = true := by
  unfold closeNode
  rcases @foldl_minStep_mem dist q (pathIdxs g) none q hq with ⟨m, hm, hle⟩
  have hm0 : m = 0 := by
    have : dkey dist q q = 0 := by
      unfold dkey
      rw [Nat.min_self, Nat.max_self]
      exact hd0 q
    omega
  unfold distFromPath
  rw [hm, hm0]
  have : ltOpt (some 0) g.path_neighborhood = true := by
    unfold ltOpt
    simpa using hpn
  rw [this]
  rfl

lemma renderRec_ok (g : IndexGraph) (dist : Nat → Nat → Nat) (hd : Nat) :
    ∀ (fuel : Nat) (n : Node), ∀ p ∈ entriesOf (renderRec g dist hd fuel n),
      p.2 = closeNode g dist p.1 hd := by
  intro fuel
  induction fuel with
  | zero =>
    intro n p hp
    rw [renderRec] at hp
    cases hp
  | succ f ih =>
    intro n p hp
    rw [renderRec] at hp
    rcases mem_entriesOf.mp hp with ⟨v, hv, hpe⟩
    rcases List.mem_map.mp hv with ⟨c, hc, hce⟩
    by_cases hcl : closeNode g dist c.index hd = true
    · rw [if_pos hcl] at hce
      rw [← hce] at hpe
      rw [entriesList] at hpe
      rcases List.mem_cons.mp hpe with rfl | hpe
      · rw [hcl]
      · exact ih c p hpe
    · rw [if_neg hcl] at hce
      rw [← hce] at hpe
      rw [entriesList] at hpe
      rcases List.mem_cons.mp hpe with rfl | hpe
      · show false = closeNode g dist c.index hd
        cases hcb : closeNode g dist c.index hd
        · rfl
        · exact absurd hcb hcl
      · cases hpe

/-- Claim C8: in the view produced by `render` over the active tree, every
visited entry is shown in full exactly when its minimum table distance to the
active path is below `path_neighborhood` or its table distance to the active
tip is below `head_neighborhood` (that is, exactly when `close_node` holds),
and a collapsed entry carries no children, so none of its descendants is
visited.  The hypotheses: the distance table is zero on the diagonal, the path
neighborhood is positive, and the render starts on a node of the active path
(as `_get_repr` does). -/
theorem c8_render_neighborhood (g : IndexGraph) (dist : Nat → Nat → Nat)
    (hd0 : ∀ x, dist x x = 0) (hpn : 0 < g.path_neighborhood)
    (start : Node) (hstart : start.index ∈ pathIdxs g) (fuel : Nat) :
    (∀ p ∈ entriesList (render g dist fuel start),
      p.2 = closeNode g dist p.1 ((pathIdxs g).getLast?.getD 0)) ∧
    (∀ j : Nat, entriesList (View.dots j) = [(j, false)]) := by
  constructor
  · intro p hp
    rw [render, entriesList] at hp
    rcases List.mem_cons.mp hp with rfl | hp
    · rw [closeNode_of_mem_path hd0 hpn hstart]
    · exact renderRec_ok g dist _ fuel start p hp
  · intro j
    rfl

def c8g : IndexGraph :=
  { all_nodes :=
      [ { index := 0, text := "a", child_indices := [1], checked_out := true }
      , { index := 1, text := "b", child_indices := [], checked_out := false } ]
    root_nodes := [0] }

def c8start : Node :=
  { index := 0, text := "a", child_indices := [1], checked_out := true }

def c8dist : Nat → Nat → Nat := fun x y => if x = y then 0 else 1

/-- Witness for claim C8 at a concrete graph and distance table. -/
theorem c8_render_neighborhood_witness :
    (∀ x, c8dist x x = 0) ∧ 0 < c8g.path_neighborhood ∧ c8start.index ∈ pathIdxs c8g ∧
    (∀ p ∈ entriesList (render c8g c8dist 2 c8start),
      p.2 = closeNode c8g c8dist p.1 ((pathIdxs c8g).getLast?.getD 0)) := by
  have hd0 : ∀ x, c8dist x x = 0 := fun x => by simp [c8dist]
  refine ⟨hd0, by decide, by decide, ?_⟩
  exact (c8_render_neighborhood c8g c8dist hd0 (by decide) c8start (by decide) 2).1

/-! ## Claim C5: delete with and without cascade -/

/-- The ids of the subtree rooted at a node, the node included. -/
def subtreeIdxs (g : IndexGraph) : Nat → Node → List Nat
  | 0, n => [n.index]
  | fuel + 1, n => n.index :: (getChildren g n).flatMap (subtreeIdxs g fuel)

/-- `b` lies in the subtree rooted at the node with id `a`. -/
inductive Reaches (g : IndexGraph) : Nat → Nat → Prop where
  | refl (a : Nat) : Reaches g a a
  | step (a c b : Nat) (p : Node) (hp : p ∈ g.all_nodes) (hpa : p.index = a)
      (hc : c ∈ p.child_indices) (h : Reaches g c b) : Reaches g a b

/-- Modelled from the spec: `LoomIndex.delete` is not under src/ (only its CLI
caller, tree.py line 529, which forwards `delete(indexes, all=all)`), so the
operation follows the spec words: `delete(ids, cascade)` removes the listed
nodes; with `cascade = false` a node with a non-empty children set cannot be
deleted and fails with Conflict (`none`), removing nothing; with
`cascade = true` the entire subtree rooted at each id is removed; removed ids
are dropped from the surviving children sets and from the roots.
`removedIdxs` is the set of ids the call removes. -/
def removedIdxs (g : IndexGraph) (ids : List Nat) (cascade : Bool) : List Nat :=
  if cascade then (ids.filterMap (lookup g)).flatMap (subtreeIdxs g g.all_nodes.length)
  else ids

/-- Modelled from the spec: the delete operation itself (see `removedIdxs`). -/
def deleteOp (g : IndexGraph) (ids : List Nat) (cascade : Bool) : Option IndexGraph :=
  if !cascade && (ids.filterMap (lookup g)).any (fun m => !m.child_indices.isEmpty) then
    none
  else
    some { g with
      all_nodes := (g.all_nodes.filter (fun m =>
          !((removedIdxs g ids cascade).contains m.index))).map
        (fun m => { m with child_indices := m.child_indices.filter (fun c =>
          !((removedIdxs g ids cascade).contains c)) }),
      root_nodes := g.root_nodes.filter (fun r =>
        !((removedIdxs g ids cascade).contains r)) }

/-- Every node of the subtree is collected by `subtreeIdxs` once the fuel
covers the remaining id range. -/
lemma reaches_subtree {g : IndexGraph} (hV : Valid g) :
    ∀ {a b : Nat}, Reaches g a b → ∀ n : Node, n ∈ g.all_nodes → n.index = a →
      ∀ fuel : Nat, g.all_nodes.length ≤ fuel + n.index → b ∈ subtreeIdxs g fuel n := by
  intro a b hr
  induction hr with
  | refl a =>
    intro n hn hna fuel _
    cases fuel with
    | zero =>
      rw [subtreeIdxs, hna]
      simp
    | succ f =>
      rw [subtreeIdxs, hna]
      simp
  | step a c b p hp hpa hc h ih =>
    intro n hn hna fuel hfuel
    have hpn : p = n := idx_inj (wf_nodupIdx hV.1) hp hn (by rw [hpa, hna])
    rcases List.mem_map.mp (wf_childMem hV.1 p hp c hc) with ⟨mc, hmc, hmce⟩
    have hlt : n.index < g.all_nodes.length := hV.2 n hn
    cases fuel with
    | zero => omega
    | succ f =>
      rw [subtreeIdxs]
      refine List.mem_cons_of_mem _ ?_
      rw [List.mem_flatMap]
      refine ⟨mc, ?_, ?_⟩
      · refine mem_getChildren (wf_nodupIdx hV.1) hmc ?_
        rw [hmce, ← hpn]
        exact hc
      · refine ih mc hmc hmce f ?_
        have hmono := wf_mono hV.1 p hp c hc
        rw [hpn] at hmono
        omega

/-- C5: deleting a node that still has children without cascade fails with
Conflict and removes nothing; deleting it with cascade removes its whole
subtree, prunes its id from every surviving children set, and drops it from
the roots. -/
theorem c5_delete_spec (g : IndexGraph) (hV : Valid g) (n : Node)
    (hn : n ∈ g.all_nodes) :
    (n.child_indices ≠ [] → deleteOp g [n.index] false = none) ∧
    (∃ g2, deleteOp g [n.index] true = some g2 ∧
      (∀ b : Nat, Reaches g n.index b → lookup g2 b = none) ∧
      (∀ p ∈ g2.all_nodes, n.index ∉ p.child_indices) ∧
      n.index ∉ g2.root_nodes) := by
  have hnd := wf_nodupIdx hV.1
  have hlk : lookup g n.index = some n := lookup_eq_some_of_mem hnd hn
  have hfm : ([n.index].filterMap (lookup g)) = [n] := by
    simp [List.filterMap_cons, hlk]
  have hR : ∀ b : Nat, Reaches g n.index b → b ∈ removedIdxs g [n.index] true := by
    intro b hr
    rw [removedIdxs, if_pos rfl, hfm, List.flatMap_cons, List.flatMap_nil,
      List.append_nil]
    exact reaches_subtree hV hr n hn rfl g.all_nodes.length (Nat.le_add_right _ _)
  constructor
  · intro hne
    have hcond : (!false && (([n.index].filterMap (lookup g)).any
        (fun m => !m.child_indices.isEmpty))) = true := by
      rw [hfm]
      cases hni : n.child_indices with
      | nil => exact absurd hni hne
      | cons a l => simp [hni]
    rw [deleteOp, if_pos hcond]
  · rw [deleteOp, if_neg (by simp)]
    refine ⟨_, rfl, ?_, ?_, ?_⟩
    · intro b hr
      rw [lookup, List.find?_eq_none]
      intro x hx
      rcases List.mem_map.mp hx with ⟨m, hm, hxm⟩
      rcases List.mem_filter.mp hm with ⟨hmg, hmc⟩
      have hmR : m.index ∉ removedIdxs g [n.index] true := by simpa using hmc
      have hxi : x.index = m.index := by rw [← hxm]
      simp only [beq_iff_eq]
      intro he
      exact hmR (by rw [← hxi, he]; exact hR b hr)
    · intro p hp hcontra
      rcases List.mem_map.mp hp with ⟨m, hm, hpm⟩
      rw [← hpm] at hcontra
      rcases List.mem_filter.mp hcontra with ⟨_, hq⟩
      exact absurd (hR n.index (Reaches.refl n.index)) (by simpa using hq)
    · intro hcontra
      rcases List.mem_filter.mp hcontra with ⟨_, hq⟩
      exact absurd (hR n.index (Reaches.refl n.index)) (by simpa using hq)

def c5g : IndexGraph :=
  { all_nodes := [⟨0, "a", [1], false⟩, ⟨1, "b", [2], false⟩, ⟨2, "c", [], false⟩],
    root_nodes := [0] }

def c5n : Node := ⟨1, "b", [2], false⟩

/-- Witness for C5 on the chain 0 → 1 → 2: deleting node 1 without cascade is a
Conflict; with cascade both 1 and 2 disappear, node 0 no longer lists 1 as a
child, and 1 is not a root. -/
theorem c5_delete_spec_witness :
    Valid c5g ∧ c5n ∈ c5g.all_nodes ∧ c5n.child_indices ≠ [] ∧
    deleteOp c5g [1] false = none ∧
    (∃ g2, deleteOp c5g [1] true = some g2 ∧ lookup g2 1 = none ∧
      lookup g2 2 = none ∧ (∀ p ∈ g2.all_nodes, 1 ∉ p.child_indices) ∧
      (1 : Nat) ∉ g2.root_nodes) := by
  have hV : Valid c5g := by unfold Valid WellFormed Contiguous; decide
  have hmem : c5n ∈ c5g.all_nodes := by decide
  have h := c5_delete_spec c5g hV c5n hmem
  refine ⟨hV, hmem, by decide, h.1 (by decide), ?_⟩
  rcases h.2 with ⟨g2, hdel, hrem, hpar, hroot⟩
  refine ⟨g2, hdel, hrem 1 (Reaches.refl 1), hrem 2 ?_, hpar, hroot⟩
  exact Reaches.step 1 2 2 c5n hmem rfl (by decide) (Reaches.refl 2)
